import Mathlib

/-! # gokube: task state machine, queue, worker and manager

A shallow embedding of the Go sources `task/task.go`, `queue/Queue.go`,
`store/store.go`, `node/node.go`, `worker/worker.go`, `worker/handler.go` and
`manager/manager.go`, followed by the properties proved about them.

Modelling conventions.

* A Go `map[K]V` is an association list `GoMap K V` (first binding of a key
  wins, a write replaces that binding or appends a new one).  The order of the
  list stands for the iteration order of one `range` over the map.
* A `uuid.UUID` is represented by its canonical text form, so that
  `t.ID.String` is the key the Go code passes to the stores.
* Pointers into the linked queue are indices into a list of allocated nodes.
* A store holds pointers to tasks: a write through a pointer the store holds is
  a write to the task kept under the key of that pointer.
* A run-time fault of the Go program (nil dereference, index out of range) is
  the result `none`.
* Calls that leave the process (container engine, HTTP, scheduler, clock, UUID
  generator) take their answers from an explicit parameter and are recorded in
  a trace that the function returns next to the new state.
* An `error` is `none` for nil and `some text` otherwise; the texts are
  shortened, since the program only tests errors against nil and logs them.
* Logging is left out.
* `int` fields are `Int`.  The only arithmetic on them is `q.len++`, `q.len--`
  and `t.RestartCount++`; the last is guarded by `RestartCount < 3`, and a queue
  cannot hold `2^63` nodes, so no operation of the model can leave the 64-bit
  range when its inputs are inside it.
-/

/-! ## Go maps -/

/-- Go map as an association list. -/
abbrev GoMap (κ ν : Type) := List (κ × ν)

namespace GoMap

variable {κ ν : Type} [DecidableEq κ]

/-- Map read `m[k]` with the comma-ok result: `none` when the key is absent. -/
def get : GoMap κ ν → κ → Option ν
  | [], _ => none
  | (k', v) :: r, k => if k' = k then some v else get r k

/-- Map write `m[k] = v`. -/
def set : GoMap κ ν → κ → ν → GoMap κ ν
  | [], k, v => [(k, v)]
  | (k', v') :: r, k, v => if k' = k then (k, v) :: r else (k', v') :: set r k v

/-- Keys of the map, in list order. -/
def keys (m : GoMap κ ν) : List κ := m.map Prod.fst

/-- Values of the map, in list order. -/
def values (m : GoMap κ ν) : List ν := m.map Prod.snd

end GoMap

/-! ## task/task.go -/

namespace task

/-- Go `type State int`. -/
abbrev State := Int

def Pending : State := 0
def Scheduled : State := 1
def Running : State := 2
def Completed : State := 3
def Failed : State := 4

/-- Go `var stateTransitionMap = map[State][]State{...}`. -/
def stateTransitionMap : GoMap State (List State) :=
  [ (Pending, [Scheduled]),
    (Scheduled, [Scheduled, Running, Failed]),
    (Running, [Running, Completed, Failed]),
    (Completed, []),
    (Failed, []) ]

/-- The canonical text of a `uuid.UUID`. -/
structure UUID where
  String : String
deriving DecidableEq, Repr

/-- Go `uuid.Nil`. -/
def UUID.Nil : UUID := ⟨"00000000-0000-0000-0000-000000000000"⟩

/-- Go `time.Time`, as a number of ticks; `0` is the zero time. -/
abbrev Time := Int

/-- Docker `nat.PortBinding`. -/
structure PortBinding where
  HostIP : String
  HostPort : String
deriving DecidableEq, Repr

/-- Docker `nat.PortSet`, a `map[Port]struct{}`. -/
abbrev PortSet := List String

/-- Docker `nat.PortMap`, a `map[Port][]PortBinding`. -/
abbrev PortMap := GoMap String (List PortBinding)

/-- Go `type Task struct`. -/
structure Task where
  ID : UUID
  ContainerId : String
  Name : String
  State : State
  Image : String
  Memory : Int
  Disk : Int
  ExposedPort : PortSet
  HostPorts : PortMap
  PortBindings : GoMap String String
  RestartPolicy : String
  StartTime : Time
  FinishTime : Time
  HealthCheck : String
  RestartCount : Int
deriving DecidableEq, Repr

/-- The zero value of `Task`. -/
def Task.zero : Task :=
  { ID := UUID.Nil, ContainerId := "", Name := "", State := 0, Image := "",
    Memory := 0, Disk := 0, ExposedPort := [], HostPorts := [], PortBindings := [],
    RestartPolicy := "", StartTime := 0, FinishTime := 0, HealthCheck := "",
    RestartCount := 0 }

/-- Go `type TaskEvent struct`. -/
structure TaskEvent where
  ID : UUID
  State : State
  Timestamp : Time
  Task : Task
deriving DecidableEq, Repr

/-- Go `type Config struct`; the `float64` field `Cpu`, which `NewConfig`
never sets, is left out. -/
structure Config where
  Name : String
  AttachStdin : Bool
  AttachStdout : Bool
  AttachStderr : Bool
  ExposedPorts : PortSet
  PortBindings : GoMap String String
  Cmd : List String
  Image : String
  Memory : Int
  Disk : Int
  Env : List String
  RestartPolicy : String
deriving DecidableEq, Repr

/-- Go `type DockerResult struct`; `Error = none` is the nil error. -/
structure DockerResult where
  Error : Option String
  Action : String
  ContainerId : String
  Result : String
deriving DecidableEq, Repr

/-- The zero value of `DockerResult`. -/
def DockerResult.zero : DockerResult :=
  { Error := none, Action := "", ContainerId := "", Result := "" }

/-- The part of Docker `types.ContainerJSON` the worker reads.  `Status` is
`State.Status` and `Ports` is `NetworkSettings.NetworkSettingsBase.Ports`; the
pointers `State` and `NetworkSettings` of an inspected container are taken to
be set, as the engine sets them. -/
structure ContainerJSON where
  Status : String
  Ports : PortMap
deriving DecidableEq, Repr

/-- Go `type DockerInspectResponse struct`; `Container = none` is the nil
pointer. -/
structure DockerInspectResponse where
  Error : Option String
  Container : Option ContainerJSON
deriving DecidableEq, Repr

/-- Answers of the container engine behind `client.Client`, one per engine
call; `some e` is the error `e`, `none` is success. -/
structure Client where
  ImagePull : String → Option String
  ContainerCreate : String → String → Except String String
  ContainerStart : String → Option String
  ContainerLogs : String → Option String
  ContainerStop : String → Option String
  ContainerRemove : String → Option String
  ContainerInspect : String → Except String ContainerJSON

/-- Go `type Docker struct`. -/
structure Docker where
  Client : Client
  Config : Config

/-- Go `func Contains(states []State, state State) bool`. -/
def Contains : List State → State → Bool
  | [], _ => false
  | s :: rest, state => if s = state then true else Contains rest state

/-- Go `func IsValidStateTransition(src State, dst State) bool`; reading a key
that is absent from `stateTransitionMap` yields the nil slice. -/
def IsValidStateTransition (src dst : State) : Bool :=
  Contains ((stateTransitionMap.get src).getD []) dst

/-- Go `func NewConfig(t *Task) *Config`. -/
def NewConfig (t : Task) : Config :=
  { Name := t.Name, AttachStdin := false, AttachStdout := false, AttachStderr := false,
    ExposedPorts := t.ExposedPort, PortBindings := t.PortBindings, Cmd := [],
    Image := t.Image, Memory := 0, Disk := 0, Env := [],
    RestartPolicy := t.RestartPolicy }

/-- Go `func NewDocker(config *Config) *Docker`, for an engine client that
could be created. -/
def NewDocker (c : Client) (config : Config) : Docker :=
  { Client := c, Config := config }

/-- Go `func (d *Docker) Run() DockerResult`. -/
def Docker.Run (d : Docker) : DockerResult :=
  match d.Client.ImagePull d.Config.Image with
  | some err => { DockerResult.zero with Error := some err }
  | none =>
    match d.Client.ContainerCreate d.Config.Image d.Config.Name with
    | .error err => { DockerResult.zero with Error := some err }
    | .ok respID =>
      match d.Client.ContainerStart respID with
      | some err => { DockerResult.zero with Error := some err }
      | none =>
        match d.Client.ContainerLogs respID with
        | some err => { DockerResult.zero with Error := some err }
        | none =>
          { Error := none, Action := "start", ContainerId := respID, Result := "success" }

/-- Go `func (d *Docker) Stop(id string) DockerResult`. -/
def Docker.Stop (d : Docker) (id : String) : DockerResult :=
  match d.Client.ContainerStop id with
  | some err => { DockerResult.zero with Error := some err }
  | none =>
    match d.Client.ContainerRemove id with
    | some err => { DockerResult.zero with Error := some err }
    | none => { Error := none, Action := "stop", ContainerId := "", Result := "success" }

/-- Go `func (d *Docker) Inspect(containerId string) DockerInspectResponse`. -/
def Docker.Inspect (d : Docker) (containerId : String) : DockerInspectResponse :=
  match d.Client.ContainerInspect containerId with
  | .error err => { Error := some err, Container := none }
  | .ok resp => { Error := none, Container := some resp }

end task

/-! ## queue/Queue.go -/

namespace queue

/-- Go `type node[T any] struct`; `next` is the address of the next node. -/
structure node (T : Type) where
  val : T
  next : Option Nat
deriving DecidableEq, Repr

/-- Go `type Queue[T any] struct`.  `heap` lists every node allocated so far,
a node pointer being its index in `heap`. -/
structure Queue (T : Type) where
  heap : List (node T)
  start : Option Nat
  «end» : Option Nat
  len : Int
deriving DecidableEq, Repr

variable {T : Type}

/-- Go `func New[T any]() *Queue[T]`. -/
def New : Queue T := { heap := [], start := none, «end» := none, len := 0 }

/-- Go `func (q *Queue[T]) Dequeue() T`, returning the value and the queue
after the call; `zeroValue` is the zero value of `T`. -/
def Queue.Dequeue (zeroValue : T) (q : Queue T) : Option (T × Queue T) :=
  if q.len = 0 then some (zeroValue, q)
  else
    match q.start with
    | none => none
    | some a =>
      match q.heap[a]? with
      | none => none
      | some start =>
        if q.len = 1 then
          some (start.val, { q with start := none, «end» := none, len := 0 })
        else
          some (start.val, { q with start := start.next, len := q.len - 1 })

/-- Go `func (q *Queue[T]) Enqueue(val T)`. -/
def Queue.Enqueue (q : Queue T) (val : T) : Option (Queue T) :=
  let n := q.heap.length
  let heap := q.heap ++ [{ val := val, next := none }]
  if q.len = 0 then
    some { heap := heap, start := some n, «end» := some n, len := q.len + 1 }
  else
    match q.«end» with
    | none => none
    | some e =>
      match q.heap[e]? with
      | none => none
      | some last =>
        some { heap := heap.set e { last with next := some n }, start := q.start,
               «end» := some n, len := q.len + 1 }

/-- Go `func (q *Queue[T]) Peek() T`. -/
def Queue.Peek (zeroValue : T) (q : Queue T) : Option T :=
  if q.len = 0 then some zeroValue
  else
    match q.start with
    | none => none
    | some a => (q.heap[a]?).map node.val

/-- Go `func (q *Queue[T]) Length() int`. -/
def Queue.Length (q : Queue T) : Int := q.len

/-- Nodes `a, ...` of `heap` linked through `next` carry the values `x :: xs`
in this order, every link goes to a later allocated node, and `last` is the
address of the node carrying the final value. -/
def chain (heap : List (node T)) : Nat → T → List T → Option Nat → Prop
  | a, x, [], last => (∃ n, heap[a]? = some n ∧ n.val = x) ∧ last = some a
  | a, x, y :: ys, last =>
    ∃ n b, heap[a]? = some n ∧ n.val = x ∧ n.next = some b ∧ a < b ∧ chain heap b y ys last

/-- The queue `q` holds exactly the values `l`, oldest first. -/
def Rep (q : Queue T) (l : List T) : Prop :=
  q.len = l.length ∧
    match l with
    | [] => True
    | x :: xs => ∃ a, q.start = some a ∧ chain q.heap a x xs q.«end»

/-- One call on a queue. -/
inductive Op (T : Type) where
  | enqueue (val : T)
  | dequeue
deriving DecidableEq, Repr

/-- Apply a sequence of calls to the linked queue, collecting what the
`Dequeue` calls return. -/
def run (zeroValue : T) : List (Op T) → Queue T → Option (Queue T × List T)
  | [], q => some (q, [])
  | Op.enqueue v :: ops, q =>
    match q.Enqueue v with
    | none => none
    | some q1 => run zeroValue ops q1
  | Op.dequeue :: ops, q =>
    match q.Dequeue zeroValue with
    | none => none
    | some (v, q1) =>
      match run zeroValue ops q1 with
      | none => none
      | some (q2, out) => some (q2, v :: out)

/-- The queue as the specification words it: a list, `Enqueue` appends at the
tail, `Dequeue` removes and returns the head, and on the empty list returns the
zero value. -/
def specRun (zeroValue : T) : List (Op T) → List T → List T × List T
  | [], l => (l, [])
  | Op.enqueue v :: ops, l => specRun zeroValue ops (l ++ [v])
  | Op.dequeue :: ops, [] =>
    let r := specRun zeroValue ops []
    (r.1, zeroValue :: r.2)
  | Op.dequeue :: ops, x :: l =>
    let r := specRun zeroValue ops l
    (r.1, x :: r.2)

end queue

/-! ## store/store.go -/

namespace store

/-- Go `type InMemoryTaskStore[T any] struct`. -/
structure InMemoryTaskStore (T : Type) where
  Db : GoMap String T
deriving DecidableEq, Repr

variable {T : Type}

/-- Go `func NewInMemoryStore[T any]() *InMemoryTaskStore[T]`. -/
def NewInMemoryStore : InMemoryTaskStore T := { Db := [] }

/-- Go `func (i *InMemoryTaskStore[T]) Put(key string, value T) error`; the
error is always nil. -/
def InMemoryTaskStore.Put (i : InMemoryTaskStore T) (key : String) (value : T) :
    InMemoryTaskStore T :=
  { Db := i.Db.set key value }

/-- Go `func (i *InMemoryTaskStore[T]) Get(key string) (T, error)`; `none` is
the error for an absent key. -/
def InMemoryTaskStore.Get (i : InMemoryTaskStore T) (key : String) : Option T :=
  i.Db.get key

/-- Go `func (i *InMemoryTaskStore[T]) List() ([]T, error)`. -/
def InMemoryTaskStore.List (i : InMemoryTaskStore T) : List T := i.Db.values

/-- Go `func (i *InMemoryTaskStore[T]) Count() (int, error)`. -/
def InMemoryTaskStore.Count (i : InMemoryTaskStore T) : Int := i.Db.length

end store

/-! ## node/node.go -/

namespace node

/-- Go `type Node struct`, without the statistics snapshot `Stats`, whose type
is declared outside the files modelled here and which the manager never
reads. -/
structure Node where
  Name : String
  Ip : String
  Api : String
  Cores : Int
  Memory : Int
  MemoryAllocated : Int
  Disk : Int
  DiskAllocated : Int
  Role : String
  TaskCount : Int
deriving DecidableEq, Repr

/-- Go `func NewNode(name, api, role string) *Node`. -/
def NewNode (name api role : String) : Node :=
  { Name := name, Ip := "", Api := api, Cores := 0, Memory := 0, MemoryAllocated := 0,
    Disk := 0, DiskAllocated := 0, Role := role, TaskCount := 0 }

end node

/-! ## worker/worker.go and worker/handler.go -/

namespace worker

open task

/-- Go `type Worker struct` with the in-memory store; `Stats` is left out. -/
structure Worker where
  Name : String
  Queue : queue.Queue Task
  Db : store.InMemoryTaskStore Task
  TaskCount : Int
deriving DecidableEq, Repr

/-- What a worker step did: the methods it invoked and the driver operations
those reached. -/
inductive Call where
  | StartTask (t : Task)
  | StopTask (t : Task)
  | Run (config : Config)
  | Stop (containerId : String)
  | Inspect (containerId : String)
deriving DecidableEq, Repr

/-- Go `func New(name string, taskDbType string) *Worker` for
`taskDbType = "memory"` (any other value leaves `Db` nil). -/
def New (name : String) : Worker :=
  { Name := name, Queue := queue.New, Db := store.NewInMemoryStore, TaskCount := 0 }

/-- Go `func (w *Worker) AddTask(t task.Task)`. -/
def Worker.AddTask (w : Worker) (t : Task) : Option Worker :=
  match w.Queue.Enqueue t with
  | none => none
  | some q => some { w with Queue := q }

/-- Go `func (w *Worker) StartTask(t task.Task) task.DockerResult`; `now` is
the reading of the clock. -/
def Worker.StartTask (c : Client) (now : Time) (w : Worker) (t : Task) :
    Worker × DockerResult × List Call :=
  let t := { t with StartTime := now }
  let config := NewConfig t
  let d := NewDocker c config
  let result := d.Run
  match result.Error with
  | some _ =>
    let t := { t with State := Failed }
    ({ w with Db := w.Db.Put t.ID.String t }, result, [Call.Run config])
  | none =>
    let t := { t with ContainerId := result.ContainerId }
    let t := { t with State := Running }
    ({ w with Db := w.Db.Put t.ID.String t }, result, [Call.Run config])

/-- Go `func (w *Worker) StopTask(t task.Task) task.DockerResult`. -/
def Worker.StopTask (c : Client) (now : Time) (w : Worker) (t : Task) :
    Worker × DockerResult × List Call :=
  let config := NewConfig t
  let d := NewDocker c config
  let result := d.Stop t.ContainerId
  match result.Error with
  | some _ =>
    let t := { t with State := Failed }
    ({ w with Db := w.Db.Put t.ID.String t }, result, [Call.Stop t.ContainerId])
  | none =>
    let t := { t with FinishTime := now }
    let t := { t with State := Completed }
    ({ w with Db := w.Db.Put t.ID.String t }, result, [Call.Stop t.ContainerId])

/-- Go `func (w *Worker) runTask() task.DockerResult`, with the worker after
the call and the calls made; `none` is a fault inside `Dequeue`. -/
def Worker.runTask (c : Client) (now : Time) (w : Worker) :
    Option (Worker × DockerResult × List Call) :=
  match w.Queue.Dequeue Task.zero with
  | none => none
  | some (t, q) =>
    let w := { w with Queue := q }
    if t.ID = UUID.Nil then
      some (w, DockerResult.zero, [])
    else
      let (taskPersisted, w) :=
        match w.Db.Get t.ID.String with
        | some p => (p, w)
        | none => (t, { w with Db := w.Db.Put t.ID.String t })
      if IsValidStateTransition taskPersisted.State t.State then
        if t.State = Scheduled then
          let r := w.StartTask c now t
          some (r.1, r.2.1, Call.StartTask t :: r.2.2)
        else if t.State = Completed then
          let r := w.StopTask c now t
          some (r.1, r.2.1, Call.StopTask t :: r.2.2)
        else
          some (w, { DockerResult.zero with Error := some "not reachable" }, [])
      else
        some (w, { DockerResult.zero with Error := some "invalid transition" }, [])

/-- Go `func (w *Worker) GetTasks() []*task.Task`. -/
def Worker.GetTasks (w : Worker) : List Task := w.Db.List

/-- Go `func (w *Worker) InspectTask(t task.Task) task.DockerInspectResponse`. -/
def Worker.InspectTask (c : Client) (t : Task) : DockerInspectResponse :=
  let config := NewConfig t
  let d := NewDocker c config
  d.Inspect t.ContainerId

/-- Body of the loop of `updateTasks` for the task `t` of the store, with the
worker after it and the calls made; `none` is the fault of reading the ports
of a nil container. -/
def Worker.updateTask (c : Client) (w : Worker) (t : Task) : Option (Worker × List Call) :=
  if t.State = Running then
    let resp := Worker.InspectTask c t
    match resp.Error with
    | some _ => some (w, [Call.Inspect t.ContainerId])
    | none =>
      match resp.Container with
      | none => none
      | some container =>
        let t := if container.Status = "exited" then { t with State := Failed } else t
        let t := { t with HostPorts := container.Ports }
        some ({ w with Db := w.Db.Put t.ID.String t }, [Call.Inspect t.ContainerId])
  else some (w, [])

/-- The loop of `updateTasks` over the tasks still to visit. -/
def Worker.updateTasksLoop (c : Client) : List Task → Worker → Option (Worker × List Call)
  | [], w => some (w, [])
  | t :: ts, w =>
    match Worker.updateTask c w t with
    | none => none
    | some (w1, calls) =>
      match Worker.updateTasksLoop c ts w1 with
      | none => none
      | some (w2, calls2) => some (w2, calls ++ calls2)

/-- Go `func (w *Worker) updateTasks()`. -/
def Worker.updateTasks (c : Client) (w : Worker) : Option (Worker × List Call) :=
  Worker.updateTasksLoop c w.Db.List w

/-- Go `func (a *Api) StartTaskHandler`, on the worker `a.Worker`: `body` is
the decoded request, `none` when decoding fails; the result carries the HTTP
status written. -/
def StartTaskHandler (w : Worker) (body : Option TaskEvent) : Option (Worker × Int) :=
  match body with
  | none => some (w, 400)
  | some te =>
    match w.AddTask te.Task with
    | none => none
    | some w1 => some (w1, 201)

/-- Go `func (a *Api) StopTaskHandler`, for a request whose `taskID` parameter
parses to `tID`. -/
def StopTaskHandler (w : Worker) (tID : UUID) : Option (Worker × Int) :=
  match w.Db.Get tID.String with
  | none => some (w, 400)
  | some taskToStop =>
    let taskCopy := { taskToStop with State := Completed }
    match w.AddTask taskCopy with
    | none => none
    | some w1 => some (w1, 204)

end worker

/-! ## manager/manager.go -/

namespace manager

open task node

/-- Go `type Manager struct` with in-memory stores.  The `Scheduler` field is
passed to each step instead: its implementations are declared outside the
files modelled here and may change between calls. -/
structure Manager where
  Pending : queue.Queue (Option TaskEvent)
  TaskDb : store.InMemoryTaskStore Task
  EventDb : store.InMemoryTaskStore TaskEvent
  Workers : List String
  WorkerTaskMap : GoMap String (List UUID)
  TaskWorkerMap : GoMap UUID String
  LastWorkerIdx : Int
  WorkerNodes : List Node
deriving DecidableEq, Repr

/-- Go `scheduler.Scheduler` interface, as the answers of one scheduler at one
moment.  `SelectCandidateNodes` returns `none` for the nil slice; `Pick`
returns `none` for the nil pointer; `κ` is the type of the score table. -/
structure Scheduler (κ : Type) where
  SelectCandidateNodes : Task → List Node → Option (List Node)
  Score : Task → List Node → κ
  Pick : κ → List Node → Option Node

/-- What a manager step did outside its own state. -/
inductive Call where
  | SelectCandidateNodes (t : Task)
  | Score (t : Task) (candidates : List Node)
  | Pick (candidates : List Node)
  | Get (url : String)
  | Post (url : String) (body : TaskEvent)
  | Delete (url : String)
  | restartTask (t : Task)
deriving DecidableEq, Repr

/-- Answers of the world outside the manager.  The first argument of each
field is the number of calls the running operation has recorded so far, so
that two calls of one operation may be answered differently.

* `Marshal te` tells whether `json.Marshal(te)` succeeds;
* `Post url te` is `none` for a transport error, else the status code and the
  task that decoding the answer body into a zero `Task` leaves there (whether
  or not the decoding reports an error); the task is read on status 201 only;
* `NewRequest url` tells whether `http.NewRequest` succeeds, `Do url` is the
  answer to the DELETE request, `none` for a transport error;
* `GetTasks url` answers `GET /task`: `none` for a transport error, else the
  status code and the decoded body (`none` when decoding fails; a `null` array
  element is `none`);
* `GetHealth url` answers a health check, `none` for a transport error;
* `NewUUID` and `Now` are `uuid.New()` and `time.Now()`. -/
structure World where
  Marshal : Nat → TaskEvent → Bool
  Post : Nat → String → TaskEvent → Option (Int × Task)
  NewRequest : Nat → String → Bool
  Do : Nat → String → Option Int
  GetTasks : Nat → String → Option (Int × Option (List (Option Task)))
  GetHealth : Nat → String → Option Int
  NewUUID : Nat → UUID
  Now : Nat → Time

/-- State of the manager with the calls made so far; `fault` is set when the
Go program stopped at a run-time fault, `m` then being the state it had
reached. -/
structure Outcome where
  m : Manager
  trace : List Call
  fault : Bool
deriving DecidableEq, Repr

/-- Go `func New(workers []string, schedulerType, dbType string) *Manager` for
`dbType = "memory"` (any other value leaves both stores nil); the scheduler
chosen by `schedulerType` is the one passed to the steps. -/
def New (workers : List String) : Manager :=
  { Pending := queue.New,
    TaskDb := store.NewInMemoryStore,
    EventDb := store.NewInMemoryStore,
    Workers := workers,
    WorkerTaskMap := workers.foldl (fun acc w => acc.set w []) [],
    TaskWorkerMap := [],
    LastWorkerIdx := 0,
    WorkerNodes := workers.map (fun w => NewNode w ("http://" ++ w) "worker") }

/-- Go `func (m *Manager) SelectWorker(t task.Task) (*node.Node, error)`, with
the scheduler calls it made. -/
def Manager.SelectWorker {κ : Type} (s : Scheduler κ) (m : Manager) (t : Task) :
    Except String (Option Node) × List Call :=
  match s.SelectCandidateNodes t m.WorkerNodes with
  | none =>
    (.error ("No available candidates match resource request for task " ++ t.ID.String),
      [Call.SelectCandidateNodes t])
  | some candidates =>
    let scores := s.Score t candidates
    let selectedNode := s.Pick scores candidates
    (.ok selectedNode,
      [Call.SelectCandidateNodes t, Call.Score t candidates, Call.Pick candidates])

/-- Go `func (m *Manager) AddTask(te task.TaskEvent)`. -/
def Manager.AddTask (m : Manager) (te : TaskEvent) : Option Manager :=
  match m.Pending.Enqueue (some te) with
  | none => none
  | some q => some { m with Pending := q }

/-- Go `func (m *Manager) GetTasks() []*task.Task`. -/
def Manager.GetTasks (m : Manager) : List Task := m.TaskDb.List

/-- Go `func (m *Manager) stopTask(worker string, taskId string)`. -/
def Manager.stopTask (W : World) (o : Outcome) (worker taskId : String) : Outcome :=
  let url := "http://" ++ worker ++ "/task/" ++ taskId
  if W.NewRequest o.trace.length url then
    { o with trace := o.trace ++ [Call.Delete url] }
  else o

/-- Go `func (m *Manager) SendWork()`.  `TaskDb` holds the address of the local
variable `t`, so the assignment `t = task.Task{}` and the `d.Decode(&t)` that
follow a 201 answer rewrite the task persisted under the key of the dispatched
task. -/
def Manager.SendWork {κ : Type} (s : Scheduler κ) (W : World) (m : Manager) : Outcome :=
  if m.Pending.Length = 0 then { m := m, trace := [], fault := false }
  else
    match m.Pending.Dequeue none with
    | none => { m := m, trace := [], fault := true }
    | some (none, q) => { m := { m with Pending := q }, trace := [], fault := true }
    | some (some te, q) =>
      let t := te.Task
      let m := { m with Pending := q, EventDb := m.EventDb.Put te.ID.String te }
      match m.TaskWorkerMap.get t.ID with
      | some taskWorker =>
        match m.TaskDb.Get t.ID.String with
        | none => { m := m, trace := [], fault := false }
        | some persistedTask =>
          if te.State = Completed ∧ IsValidStateTransition persistedTask.State te.State then
            Manager.stopTask W { m := m, trace := [], fault := false } taskWorker t.ID.String
          else { m := m, trace := [], fault := false }
      | none =>
        match m.SelectWorker s t with
        | (.error _, calls) => { m := m, trace := calls, fault := false }
        | (.ok none, calls) => { m := m, trace := calls, fault := true }
        | (.ok (some w), calls) =>
          let m := { m with
            WorkerTaskMap :=
              m.WorkerTaskMap.set w.Name (((m.WorkerTaskMap.get w.Name).getD []) ++ [t.ID]),
            TaskWorkerMap := m.TaskWorkerMap.set t.ID w.Name }
          let t := { t with State := Scheduled }
          let m := { m with TaskDb := m.TaskDb.Put t.ID.String t }
          if W.Marshal calls.length te then
            let url := "http://" ++ w.Name ++ "/task"
            match W.Post calls.length url te with
            | none =>
              match m.Pending.Enqueue (some te) with
              | none => { m := m, trace := calls ++ [Call.Post url te], fault := true }
              | some q1 =>
                { m := { m with Pending := q1 }, trace := calls ++ [Call.Post url te],
                  fault := false }
            | some (status, body) =>
              if status ≠ 201 then
                { m := m, trace := calls ++ [Call.Post url te], fault := false }
              else
                { m := { m with TaskDb := m.TaskDb.Put t.ID.String body },
                  trace := calls ++ [Call.Post url te], fault := false }
          else { m := m, trace := calls, fault := false }

/-- Go `func getHostPort(ports nat.PortMap) *string`: the first binding of
the first entry the iteration visits; the outer `none` is the index fault on an
entry without bindings, the inner `none` the nil result. -/
def getHostPort (ports : PortMap) : Option (Option String) :=
  match ports with
  | [] => some none
  | (_, []) :: _ => none
  | (_, portBinding :: _) :: _ => some (some portBinding.HostPort)

/-- The text before the first colon, Go `strings.Split(w, ":")[0]`. -/
def hostOf (w : String) : String := String.mk (w.data.takeWhile (fun ch => ch ≠ ':'))

/-- Go `func (m *Manager) checkTaskHealth(t task.Task) error`, continuing the
outcome `o`; the result is `none` at a fault, else the error (`none` for nil)
and the calls made. -/
def Manager.checkTaskHealth (W : World) (o : Outcome) (t : Task) :
    Option (Option String × List Call) :=
  let w := (o.m.TaskWorkerMap.get t.ID).getD ""
  match getHostPort t.HostPorts with
  | none => none
  | some none => some (none, [])
  | some (some hostPort) =>
    let url := "http://" ++ hostOf w ++ ":" ++ hostPort ++ t.HealthCheck
    match W.GetHealth o.trace.length url with
    | none => some (some ("Error connecting to health check " ++ url), [Call.Get url])
    | some status =>
      if status ≠ 200 then
        some (some ("Error health check for task " ++ t.ID.String ++ " did not return 200\n"),
          [Call.Get url])
      else some (none, [Call.Get url])

/-- Go `func (m *Manager) restartTask(t *task.Task)`, continuing the outcome
`o`. -/
def Manager.restartTask (W : World) (o : Outcome) (t : Task) : Outcome :=
  let o := { o with trace := o.trace ++ [Call.restartTask t] }
  let m := o.m
  let w := (m.TaskWorkerMap.get t.ID).getD ""
  let t := { t with State := Scheduled }
  let t := { t with RestartCount := t.RestartCount + 1 }
  let m := { m with TaskDb := m.TaskDb.Put t.ID.String t }
  let te : TaskEvent :=
    { ID := W.NewUUID o.trace.length, State := Running, Timestamp := W.Now o.trace.length,
      Task := t }
  if W.Marshal o.trace.length te then
    let url := "http://" ++ w ++ "/task"
    match W.Post o.trace.length url te with
    | none =>
      match m.Pending.Enqueue (some te) with
      | none => { m := m, trace := o.trace ++ [Call.Post url te], fault := true }
      | some q => { m := { m with Pending := q }, trace := o.trace ++ [Call.Post url te],
                    fault := false }
    | some _ => { m := m, trace := o.trace ++ [Call.Post url te], fault := false }
  else { m := m, trace := o.trace, fault := false }

/-- Body of the loop of `doHealthChecks` for the task `t`. -/
def Manager.doHealthCheck (W : World) (o : Outcome) (t : Task) : Outcome :=
  if t.State = Running ∧ t.RestartCount < 3 then
    match Manager.checkTaskHealth W o t with
    | none => { o with fault := true }
    | some (err, calls) =>
      let o := { o with trace := o.trace ++ calls }
      match err with
      | some _ => if t.RestartCount < 3 then Manager.restartTask W o t else o
      | none => o
  else if t.State = Failed ∧ t.RestartCount < 3 then
    Manager.restartTask W o t
  else o

/-- The loop of `doHealthChecks` over the tasks still to visit; it stops at a
fault. -/
def Manager.doHealthChecksLoop (W : World) : List Task → Outcome → Outcome
  | [], o => o
  | t :: ts, o =>
    if o.fault then o else Manager.doHealthChecksLoop W ts (Manager.doHealthCheck W o t)

/-- Go `func (m *Manager) doHealthChecks()`. -/
def Manager.doHealthChecks (W : World) (m : Manager) : Outcome :=
  Manager.doHealthChecksLoop W m.GetTasks { m := m, trace := [], fault := false }

/-- Body of the inner loop of `updateTasks` for one decoded element `t`. -/
def Manager.updateTask (o : Outcome) (t : Option Task) : Outcome :=
  match t with
  | none => { o with fault := true }
  | some t =>
    match o.m.TaskDb.Get t.ID.String with
    | none => o
    | some task =>
      let task := { task with State := t.State }
      let task := { task with StartTime := t.StartTime }
      let task := { task with FinishTime := t.FinishTime }
      let task := { task with ContainerId := t.ContainerId }
      let task := { task with HostPorts := t.HostPorts }
      { o with m := { o.m with TaskDb := o.m.TaskDb.Put task.ID.String task } }

/-- The inner loop of `updateTasks` over the decoded tasks of one worker. -/
def Manager.updateTasksOf : List (Option Task) → Outcome → Outcome
  | [], o => o
  | t :: ts, o => if o.fault then o else Manager.updateTasksOf ts (Manager.updateTask o t)

/-- The outer loop of `updateTasks` over the workers still to visit. -/
def Manager.updateTasksLoop (W : World) : List String → Outcome → Outcome
  | [], o => o
  | worker :: ws, o =>
    if o.fault then o
    else
      let url := "http://" ++ worker ++ "/task"
      let answer := W.GetTasks o.trace.length url
      let o := { o with trace := o.trace ++ [Call.Get url] }
      match answer with
      | none => Manager.updateTasksLoop W ws o
      | some (status, body) =>
        if status ≠ 200 then Manager.updateTasksLoop W ws o
        else
          match body with
          | none => Manager.updateTasksLoop W ws o
          | some tasks => Manager.updateTasksLoop W ws (Manager.updateTasksOf tasks o)

/-- Go `func (m *Manager) updateTasks()`. -/
def Manager.updateTasks (W : World) (m : Manager) : Outcome :=
  Manager.updateTasksLoop W m.Workers { m := m, trace := [], fault := false }

end manager

/-! ## Concrete tasks, schedulers and worlds -/

namespace sample

open task node manager

/-- A task with identifier `A`, every other field but the image at its zero
value; its state is `Pending`. -/
def taskA : Task := { Task.zero with ID := ⟨"A"⟩, Image := "img:1" }

/-- An event asking to schedule `taskA`. -/
def eventA : TaskEvent := { ID := ⟨"E"⟩, State := Scheduled, Timestamp := 0, Task := taskA }

/-- A scheduler that keeps every node and picks the first candidate; with no
node at all it returns the nil slice it was given. -/
def firstNode : Scheduler Unit :=
  { SelectCandidateNodes := fun _ nodes => if nodes = [] then none else some nodes,
    Score := fun _ _ => (),
    Pick := fun _ candidates => candidates.head? }

/-- A scheduler whose filter rejects every node and returns an empty slice
that is not nil. -/
def rejectAll : Scheduler Unit :=
  { SelectCandidateNodes := fun _ _ => some [],
    Score := fun _ _ => (),
    Pick := fun _ candidates => candidates.head? }

/-- A scheduler whose filter returns the nil slice. -/
def rejectAllNil : Scheduler Unit :=
  { SelectCandidateNodes := fun _ _ => none,
    Score := fun _ _ => (),
    Pick := fun _ candidates => candidates.head? }

/-- A world in which every request is answered with success, a start-task
request as `StartTaskHandler` answers it (201 with the task of the event), and
the workers report no task. -/
def calm : World :=
  { Marshal := fun _ _ => true,
    Post := fun _ _ te => some (201, te.Task),
    NewRequest := fun _ _ => true,
    Do := fun _ _ => some 204,
    GetTasks := fun _ _ => some (200, some []),
    GetHealth := fun _ _ => some 200,
    NewUUID := fun _ => ⟨"N"⟩,
    Now := fun _ => 7 }

/-- A world in which every worker refuses a start-task request with status
400, an answer whose body is no task. -/
def refusing : World :=
  { calm with Post := fun _ _ _ => some (400, Task.zero) }

/-- A world in which no worker can be reached. -/
def unreachable : World :=
  { calm with
    Post := fun _ _ _ => none,
    Do := fun _ _ => none,
    GetTasks := fun _ _ => none,
    GetHealth := fun _ _ => none }

/-- A container engine on which every operation succeeds. -/
def engine : Client :=
  { ImagePull := fun _ => none,
    ContainerCreate := fun _ _ => .ok "c1",
    ContainerStart := fun _ => none,
    ContainerLogs := fun _ => none,
    ContainerStop := fun _ => none,
    ContainerRemove := fun _ => none,
    ContainerInspect := fun _ => .ok { Status := "running", Ports := [] } }

/-- A queue holding the single value `x`. -/
def single {T : Type} (x : T) : queue.Queue T :=
  { heap := [{ val := x, next := none }], start := some 0, «end» := some 0, len := 1 }

/-- A manager with one worker `w1` and `eventA` waiting on the pending queue. -/
def managerA : Manager := { New ["w1"] with Pending := single (some eventA) }

/-- The task `X` as the manager and the worker hold it after its container
failed. -/
def failedX : Task := { Task.zero with ID := ⟨"X"⟩, State := Failed, ContainerId := "c0" }

/-- A manager that assigned `failedX` to worker `w1`. -/
def managerX : Manager :=
  { New ["w1"] with
    TaskDb := { Db := [("X", failedX)] },
    WorkerTaskMap := [("w1", [⟨"X"⟩])],
    TaskWorkerMap := [(⟨"X"⟩, "w1")] }

/-- The worker `w1` holding `failedX`, with nothing queued. -/
def workerX : worker.Worker := { worker.New "w1" with Db := { Db := [("X", failedX)] } }

/-- The event `restartTask` posts for `failedX`. -/
def restartEventX : TaskEvent :=
  { ID := ⟨"N"⟩, State := Running, Timestamp := 7,
    Task := { failedX with State := Scheduled, RestartCount := 1 } }

end sample

/-! ## Sequences of manager steps and the predicates stated about them -/

namespace worker

open task

/-- The task `t` as the worker's `updateTasks` writes it back after an
inspection that returned the container `container`: `Failed` when the
container has exited, and with the ports the engine published. -/
def inspected (t : Task) (container : ContainerJSON) : Task :=
  { (if container.Status = "exited" then { t with State := Failed } else t) with
    HostPorts := container.Ports }

end worker

namespace manager

open task node

/-- One step of the dispatch side of the manager: a submission through
`AddTask`, or one `SendWork` with the scheduler and the world it meets. -/
inductive Step (κ : Type) where
  | AddTask (te : TaskEvent)
  | SendWork (s : Scheduler κ) (W : World)

/-- Run the steps in order from `m`.  The result is the manager state reached
and whether the program stopped at a run-time fault; the steps after a fault
are not run. -/
def Manager.steps {κ : Type} : List (Step κ) → Manager → Manager × Bool
  | [], m => (m, false)
  | Step.AddTask te :: rest, m =>
    match m.AddTask te with
    | none => (m, true)
    | some m1 => Manager.steps rest m1
  | Step.SendWork s W :: rest, m =>
    let o := Manager.SendWork s W m
    if o.fault then (o.m, true) else Manager.steps rest o.m

/-- The two assignment maps agree: `TaskWorkerMap[id] = w` exactly when `id`
occurs in `WorkerTaskMap[w]`, and an assigned `id` occurs exactly once in all
the lists of `WorkerTaskMap` taken together.  The first component says that
the association list is a map (no key is bound twice). -/
def Agree (m : Manager) : Prop :=
  m.WorkerTaskMap.keys.Nodup ∧
  (∀ id w, m.TaskWorkerMap.get id = some w ↔ id ∈ (m.WorkerTaskMap.get w).getD []) ∧
  (∀ id w, m.TaskWorkerMap.get id = some w → m.WorkerTaskMap.values.flatten.count id = 1)

/-- Every task of the store is kept under the text of its own identifier, and
no key is bound twice: the shape every `Put` of `manager.go` maintains, and
that the decoding of a 201 answer in `SendWork` keeps when the worker answers
with the task it received. -/
def Keyed (db : store.InMemoryTaskStore Task) : Prop :=
  db.Db.keys.Nodup ∧ ∀ p ∈ db.Db, p.2.ID.String = p.1

/-- The task as `restartTask` rewrites it. -/
def restarted (t : Task) : Task :=
  { t with State := Scheduled, RestartCount := t.RestartCount + 1 }

/-- The persisted task `task` after `updateTasks` copied into it the five
fields it takes from the reported task `t`. -/
def reconciled (task t : Task) : Task :=
  { task with State := t.State, StartTime := t.StartTime, FinishTime := t.FinishTime,
              ContainerId := t.ContainerId, HostPorts := t.HostPorts }

/-- The elements `updateTasks` reads from the workers `ws` in one tick, in the
order its loops visit them, `n` being the number of calls already made: a
worker contributes the decoded body of its answer when the request succeeds
with status 200 and the body decodes, and nothing otherwise. -/
def Manager.reportsFrom (W : World) : Nat → List String → List (Option Task)
  | _, [] => []
  | n, worker :: ws =>
    (match W.GetTasks n ("http://" ++ worker ++ "/task") with
      | some (status, some tasks) => if status = 200 then tasks else []
      | _ => []) ++ Manager.reportsFrom W (n + 1) ws

/-- The elements one `updateTasks` tick of the manager `m` reads from its
workers. -/
def Manager.reports (W : World) (m : Manager) : List (Option Task) :=
  Manager.reportsFrom W 0 m.Workers

/-- One tick of a periodic loop of the manager that rewrites persisted tasks,
with the world it meets. -/
inductive Tick where
  | doHealthChecks (W : World)
  | updateTasks (W : World)

/-- Run one tick from the manager state `m`. -/
def Manager.tick (k : Tick) (m : Manager) : Outcome :=
  match k with
  | Tick.doHealthChecks W => Manager.doHealthChecks W m
  | Tick.updateTasks W => Manager.updateTasks W m

/-- Run the ticks in order from the outcome `o`, appending their calls to its
trace; the ticks after a fault are not run. -/
def Manager.ticks : List Tick → Outcome → Outcome
  | [], o => o
  | k :: ks, o =>
    if o.fault then o
    else
      let r := Manager.tick k o.m
      Manager.ticks ks { m := r.m, trace := o.trace ++ r.trace, fault := r.fault }

end manager

namespace sample

open task node manager

/-- A world in which every worker reports the single task `u`. -/
def reporting (u : Task) : World :=
  { calm with GetTasks := fun _ _ => some (200, some [some u]) }

/-- The task `A` as `SendWork` persists it after dispatching `eventA`. -/
def scheduledA : Task := { taskA with State := Scheduled }

/-- A manager that dispatched `eventA` to worker `w1`. -/
def managerScheduledA : Manager :=
  { New ["w1"] with
    TaskDb := { Db := [("A", scheduledA)] },
    WorkerTaskMap := [("w1", [⟨"A"⟩])],
    TaskWorkerMap := [(⟨"A"⟩, "w1")] }

/-- The task `A` as its worker reports it once the container runs. -/
def runningA : Task :=
  { taskA with State := Running, ContainerId := "c1", StartTime := 5,
               HostPorts := [("80/tcp", [{ HostIP := "0.0.0.0", HostPort := "32768" }])] }

/-- The task `Y` as a worker holds it while its container runs. -/
def runningY : Task := { Task.zero with ID := ⟨"Y"⟩, State := Running, ContainerId := "c7" }

/-- The worker `w1` holding `runningY`, with nothing queued. -/
def workerY : worker.Worker := { worker.New "w1" with Db := { Db := [("Y", runningY)] } }

/-- A container engine that knows no container: every inspection fails. -/
def engineWithout : Client :=
  { engine with ContainerInspect := fun id => .error ("No such container: " ++ id) }

/-- A container engine whose containers have all exited. -/
def engineExited : Client :=
  { engine with ContainerInspect := fun _ => .ok { Status := "exited", Ports := [] } }

/-- An event asking to schedule a task `A` that its submitter marked
`Running`. -/
def eventRunningA : TaskEvent := { eventA with Task := { taskA with State := Running } }

/-- A manager with one worker `w1` and `eventRunningA` waiting on the pending
queue. -/
def managerRunningA : Manager := { New ["w1"] with Pending := single (some eventRunningA) }

end sample

/-! # Properties -/

/-! ## Lemmas on Go maps -/

namespace GoMap

variable {κ ν : Type} [DecidableEq κ]

theorem get_set (m : GoMap κ ν) (k k' : κ) (v : ν) :
    (m.set k v).get k' = if k = k' then some v else m.get k' := by
  induction m with
  | nil => simp [set, get]
  | cons p r ih =>
    obtain ⟨k0, v0⟩ := p
    by_cases h : k0 = k
    · subst h
      by_cases h' : k0 = k' <;> simp [set, get, h']
    · by_cases h' : k0 = k'
      · subst h'
        have : ¬ k = k0 := fun e => h e.symm
        simp [set, get, h, this]
      · simp [set, get, h, h', ih]

theorem get_set_self (m : GoMap κ ν) (k : κ) (v : ν) : (m.set k v).get k = some v := by
  simp [get_set]

theorem get_set_of_ne (m : GoMap κ ν) {k k' : κ} (v : ν) (h : k ≠ k') :
    (m.set k v).get k' = m.get k' := by
  simp [get_set, h]

theorem keys_set (m : GoMap κ ν) (k : κ) (v : ν) :
    (m.set k v).keys = if k ∈ m.keys then m.keys else m.keys ++ [k] := by
  induction m with
  | nil => simp [set, keys]
  | cons p r ih =>
    obtain ⟨k0, v0⟩ := p
    by_cases h : k0 = k
    · subst h; simp [set, keys]
    · have h' : ¬ k = k0 := fun e => h e.symm
      simp only [keys] at ih
      by_cases hm : k ∈ List.map Prod.fst r
      · simp [set, keys, h, h', hm, ih]
      · simp [set, keys, h, h', hm, ih]

theorem nodup_keys_set {m : GoMap κ ν} (h : m.keys.Nodup) (k : κ) (v : ν) :
    (m.set k v).keys.Nodup := by
  rw [keys_set]
  split
  · exact h
  · rename_i hk
    exact List.Nodup.append h (List.nodup_singleton k) (by simpa using hk)

theorem mem_of_get {m : GoMap κ ν} {k : κ} {v : ν} (h : m.get k = some v) : (k, v) ∈ m := by
  induction m with
  | nil => simp [get] at h
  | cons p r ih =>
    obtain ⟨k0, v0⟩ := p
    by_cases hk : k0 = k
    · subst hk; simp [get] at h; simp [h]
    · simp [get, hk] at h; exact List.mem_cons_of_mem _ (ih h)

theorem get_of_mem {m : GoMap κ ν} (hn : m.keys.Nodup) {k : κ} {v : ν} (h : (k, v) ∈ m) :
    m.get k = some v := by
  induction m with
  | nil => simp at h
  | cons p r ih =>
    obtain ⟨k0, v0⟩ := p
    simp only [keys, List.map_cons, List.nodup_cons] at hn
    rcases List.mem_cons.mp h with h1 | h1
    · cases h1; simp [get]
    · have hk : k0 ≠ k := by
        intro e; subst e
        exact hn.1 (List.mem_map.mpr ⟨(k0, v), h1, rfl⟩)
      simp [get, hk]
      exact ih hn.2 h1

theorem get_isSome_iff (m : GoMap κ ν) (k : κ) : (m.get k).isSome ↔ k ∈ m.keys := by
  induction m with
  | nil => simp [get, keys]
  | cons p r ih =>
    obtain ⟨k0, v0⟩ := p
    by_cases hk : k0 = k
    · subst hk; simp [get, keys]
    · have hk' : ¬ k = k0 := fun e => hk e.symm
      simp only [keys] at ih
      simp [get, keys, hk, hk', ih]

theorem count_flatten_set {α : Type} [DecidableEq α] (m : GoMap κ (List α)) (k : κ) (x y : α) :
    (m.set k (((m.get k).getD []) ++ [x])).values.flatten.count y
      = m.values.flatten.count y + if x = y then 1 else 0 := by
  induction m with
  | nil =>
    by_cases h : x = y <;> simp [set, get, values, h, List.count_cons]
  | cons p r ih =>
    obtain ⟨k0, v0⟩ := p
    by_cases hk : k0 = k
    · subst hk
      by_cases h : x = y
      · simp [set, get, values, h, List.count_append, List.count_cons]; omega
      · simp [set, get, values, h, List.count_append, List.count_cons]
    · simp only [values] at ih
      simp only [set, get, values, hk, if_false, List.map_cons, List.flatten_cons,
        List.count_append, ih]
      omega

theorem mem_set {m : GoMap κ ν} {k : κ} {v : ν} {p : κ × ν} (h : p ∈ m.set k v) :
    p = (k, v) ∨ p ∈ m := by
  induction m with
  | nil => simp [set] at h; exact Or.inl h
  | cons q r ih =>
    obtain ⟨k0, v0⟩ := q
    by_cases hk : k0 = k
    · simp only [set, hk, if_true, List.mem_cons] at h
      rcases h with h | h
      · exact Or.inl h
      · exact Or.inr (List.mem_cons_of_mem _ h)
    · simp only [set, hk, if_false, List.mem_cons] at h
      rcases h with h | h
      · exact Or.inr (by simp [h])
      · rcases ih h with h1 | h1
        · exact Or.inl h1
        · exact Or.inr (List.mem_cons_of_mem _ h1)

end GoMap

/-! ## The linked queue holds a list -/

namespace queue

variable {T : Type}

theorem chain_bounds {heap : List (node T)} :
    ∀ (xs : List T) (a : Nat) (x : T) (last : Option Nat), chain heap a x xs last →
      a < heap.length ∧ ∃ e, last = some e ∧ a ≤ e ∧ e < heap.length := by
  intro xs
  induction xs with
  | nil =>
    intro a x last h
    obtain ⟨⟨n, hn, _⟩, hl⟩ := h
    have ha : a < heap.length := (List.getElem?_eq_some_iff.mp hn).1
    exact ⟨ha, a, hl, le_rfl, ha⟩
  | cons y ys ih =>
    intro a x last h
    obtain ⟨n, b, hn, _, _, hab, hc⟩ := h
    have ha : a < heap.length := (List.getElem?_eq_some_iff.mp hn).1
    obtain ⟨_, e, he, hbe, hel⟩ := ih b y last hc
    exact ⟨ha, e, he, by omega, hel⟩

theorem chain_enqueue {heap : List (node T)} (v : T) (e : Nat) (lastNode : node T)
    (hl : heap[e]? = some lastNode) :
    ∀ (xs : List T) (a : Nat) (x : T), chain heap a x xs (some e) →
      chain ((heap ++ [(⟨v, none⟩ : node T)]).set e
          { lastNode with next := some heap.length }) a x (xs ++ [v]) (some heap.length) := by
  have hlt : e < heap.length := (List.getElem?_eq_some_iff.mp hl).1
  intro xs
  induction xs with
  | nil =>
    intro a x h
    obtain ⟨⟨n, hn, hv⟩, hlast⟩ := h
    have hae : e = a := by simpa using hlast
    subst hae
    have hnl : n = lastNode := by rw [hl] at hn; exact (Option.some.inj hn).symm
    subst hnl
    refine ⟨{ n with next := some heap.length }, heap.length, ?_, hv, rfl, hlt, ?_, rfl⟩
    · rw [List.getElem?_set_self (by simp; omega)]
    · refine ⟨⟨v, none⟩, ?_, rfl⟩
      rw [List.getElem?_set_ne (by omega)]
      simp
  | cons y ys ih =>
    intro a x h
    obtain ⟨n, b, hn, hv, hnext, hab, hc⟩ := h
    obtain ⟨_, e', he', hbe, _⟩ := chain_bounds ys b y (some e) hc
    have hee : e' = e := by simpa using he'.symm
    subst hee
    have ha : a < heap.length := (List.getElem?_eq_some_iff.mp hn).1
    refine ⟨n, b, ?_, hv, hnext, hab, ih b y hc⟩
    rw [List.getElem?_set_ne (by omega), List.getElem?_append_left ha]
    exact hn

theorem Rep_New : Rep (New : Queue T) [] := by
  simp [Rep, New]

theorem Rep_Length {q : Queue T} {l : List T} (h : Rep q l) : q.Length = l.length := h.1

theorem Rep_Enqueue {q : Queue T} {l : List T} (h : Rep q l) (v : T) :
    ∃ q1, q.Enqueue v = some q1 ∧ Rep q1 (l ++ [v]) := by
  cases l with
  | nil =>
    have hlen : q.len = 0 := by simpa using h.1
    refine ⟨_, by simp [Queue.Enqueue, hlen]; rfl, ?_⟩
    refine ⟨by simp [hlen], q.heap.length, rfl, ⟨{ val := v, next := none }, ?_, rfl⟩, rfl⟩
    simp
  | cons x xs =>
    obtain ⟨hlen, a, hs, hc⟩ := h
    obtain ⟨_, e, he, _, hel⟩ := chain_bounds xs a x _ hc
    have hne : q.len ≠ 0 := by rw [hlen]; simp; omega
    obtain ⟨lastNode, hln⟩ : ∃ n, q.heap[e]? = some n := ⟨q.heap[e], List.getElem?_eq_getElem hel⟩
    refine ⟨_, by simp [Queue.Enqueue, hne, he, hln]; rfl, ?_⟩
    refine ⟨by simp [hlen], a, hs, ?_⟩
    rw [he] at hc
    exact chain_enqueue v e lastNode hln xs a x hc

theorem Rep_Dequeue {q : Queue T} {x : T} {xs : List T} (h : Rep q (x :: xs)) (zeroValue : T) :
    ∃ q1, q.Dequeue zeroValue = some (x, q1) ∧ Rep q1 xs := by
  obtain ⟨hlen, a, hs, hc⟩ := h
  cases xs with
  | nil =>
    obtain ⟨⟨n, hn, hv⟩, _⟩ := hc
    have h1 : q.len = 1 := by simpa using hlen
    refine ⟨_, by simp [Queue.Dequeue, h1, hs, hn, hv]; rfl, ?_⟩
    simp [Rep]
  | cons y ys =>
    obtain ⟨n, b, hn, hv, hnext, _, hc'⟩ := hc
    have h0 : q.len ≠ 0 := by rw [hlen]; simp; omega
    have h1 : q.len ≠ 1 := by rw [hlen]; simp; omega
    refine ⟨_, by simp [Queue.Dequeue, h0, h1, hs, hn, hv]; rfl, ?_⟩
    refine ⟨by simp [hlen], b, hnext, hc'⟩

theorem Rep_Dequeue_nil {q : Queue T} (h : Rep q []) (zeroValue : T) :
    q.Dequeue zeroValue = some (zeroValue, q) := by
  have hlen : q.len = 0 := by simpa using h.1
  simp [Queue.Dequeue, hlen]

theorem run_refines (zeroValue : T) :
    ∀ (ops : List (Op T)) (q : Queue T) (l : List T), Rep q l →
      ∃ q1, run zeroValue ops q = some (q1, (specRun zeroValue ops l).2) ∧
        Rep q1 (specRun zeroValue ops l).1 := by
  intro ops
  induction ops with
  | nil => intro q l h; exact ⟨q, rfl, h⟩
  | cons op ops ih =>
    intro q l h
    cases op with
    | enqueue v =>
      obtain ⟨q1, he, hr⟩ := Rep_Enqueue h v
      obtain ⟨q2, h2, hr2⟩ := ih q1 _ hr
      exact ⟨q2, by simp [run, he, h2, specRun], by simpa [specRun] using hr2⟩
    | dequeue =>
      cases l with
      | nil =>
        obtain ⟨q2, h2, hr2⟩ := ih q [] h
        exact ⟨q2, by simp [run, Rep_Dequeue_nil h, h2, specRun], by simpa [specRun] using hr2⟩
      | cons x xs =>
        obtain ⟨q1, hd, hr⟩ := Rep_Dequeue h zeroValue
        obtain ⟨q2, h2, hr2⟩ := ih q1 _ hr
        exact ⟨q2, by simp [run, hd, h2, specRun], by simpa [specRun] using hr2⟩

theorem specRun_enqueues (zeroValue : T) (rest : List (Op T)) :
    ∀ (xs l : List T), specRun zeroValue (xs.map Op.enqueue ++ rest) l
      = specRun zeroValue rest (l ++ xs) := by
  intro xs
  induction xs with
  | nil => intro l; simp
  | cons x xs ih => intro l; simp [specRun, ih]

theorem specRun_dequeues (zeroValue : T) :
    ∀ (l : List T), specRun zeroValue (List.replicate l.length Op.dequeue) l = ([], l) := by
  intro l
  induction l with
  | nil => simp [specRun]
  | cons x xs ih => simp [List.replicate, specRun, ih]

end queue

/-! ## Lemmas on the manager -/

namespace manager

open task node

/-- The same maps read through a manager that differs in other fields. -/
theorem Agree_congr {m m1 : Manager} (hw : m1.WorkerTaskMap = m.WorkerTaskMap)
    (ht : m1.TaskWorkerMap = m.TaskWorkerMap) (h : Agree m) : Agree m1 := by
  unfold Agree at *
  rw [hw, ht]
  exact h

/-- Assigning a task that has no worker yet keeps the two maps in agreement. -/
theorem Agree_assign {m m1 : Manager} (h : Agree m) (id : UUID) (name : String)
    (hnew : m.TaskWorkerMap.get id = none)
    (hw : m1.WorkerTaskMap
      = m.WorkerTaskMap.set name (((m.WorkerTaskMap.get name).getD []) ++ [id]))
    (ht : m1.TaskWorkerMap = m.TaskWorkerMap.set id name) : Agree m1 := by
  obtain ⟨hn, hiff, hcount⟩ := h
  have hnot : ∀ w, id ∉ (m.WorkerTaskMap.get w).getD [] := by
    intro w hmem
    have := (hiff id w).mpr hmem
    rw [hnew] at this
    cases this
  have hzero : m.WorkerTaskMap.values.flatten.count id = 0 := by
    rw [List.count_eq_zero]
    intro hmem
    obtain ⟨l, hl, hid⟩ := List.mem_flatten.mp hmem
    obtain ⟨p, hp, hpl⟩ := List.mem_map.mp hl
    obtain ⟨w, l0⟩ := p
    simp only at hpl
    subst hpl
    have hg := GoMap.get_of_mem hn hp
    exact hnot w (by rw [hg]; exact hid)
  unfold Agree
  rw [hw, ht]
  refine ⟨GoMap.nodup_keys_set hn _ _, ?_, ?_⟩
  · intro id1 w
    rw [GoMap.get_set, GoMap.get_set]
    by_cases h1 : id = id1
    · subst h1
      by_cases h2 : name = w
      · subst h2; simp
      · have h2' : ¬ w = name := fun e => h2 e.symm
        simp only [if_true, if_neg h2, Option.some.injEq, h2, false_iff]
        exact hnot w
    · have h1' : ¬ id1 = id := fun e => h1 e.symm
      by_cases h2 : name = w
      · subst h2
        simp only [if_neg h1, if_true, Option.getD_some, List.mem_append, List.mem_singleton,
          h1', or_false]
        exact hiff id1 name
      · simp only [if_neg h1, if_neg h2]
        exact hiff id1 w
  · intro id1 w hget
    rw [GoMap.count_flatten_set]
    rw [GoMap.get_set] at hget
    by_cases h1 : id = id1
    · subst h1
      simp [hzero]
    · simp only [if_neg h1] at hget
      simp [h1, hcount id1 w hget]

theorem stopTask_m (W : World) (o : Outcome) (worker taskId : String) :
    (Manager.stopTask W o worker taskId).m = o.m := by
  unfold Manager.stopTask
  dsimp only
  split <;> rfl

/-- What `SendWork` does to the two assignment maps: nothing, or the
assignment of a task that had no worker to the node the scheduler picked. -/
theorem SendWork_maps {κ : Type} (s : Scheduler κ) (W : World) (m : Manager) :
    ((Manager.SendWork s W m).m.WorkerTaskMap = m.WorkerTaskMap ∧
      (Manager.SendWork s W m).m.TaskWorkerMap = m.TaskWorkerMap) ∨
    ∃ id name, m.TaskWorkerMap.get id = none ∧
      (Manager.SendWork s W m).m.WorkerTaskMap
        = m.WorkerTaskMap.set name (((m.WorkerTaskMap.get name).getD []) ++ [id]) ∧
      (Manager.SendWork s W m).m.TaskWorkerMap = m.TaskWorkerMap.set id name := by
  unfold Manager.SendWork
  split
  · exact Or.inl ⟨rfl, rfl⟩
  · split
    · exact Or.inl ⟨rfl, rfl⟩
    · exact Or.inl ⟨rfl, rfl⟩
    · rename_i te q hd
      dsimp only
      split
      · split
        · exact Or.inl ⟨rfl, rfl⟩
        · split
          · exact Or.inl ⟨by rw [stopTask_m], by rw [stopTask_m]⟩
          · exact Or.inl ⟨rfl, rfl⟩
      · rename_i hnew
        split
        · exact Or.inl ⟨rfl, rfl⟩
        · exact Or.inl ⟨rfl, rfl⟩
        · rename_i w calls hsel
          refine Or.inr ⟨te.Task.ID, w.Name, hnew, ?_, ?_⟩
          · split
            · split
              · split <;> rfl
              · split <;> rfl
            · rfl
          · split
            · split
              · split <;> rfl
              · split <;> rfl
            · rfl

theorem Agree_SendWork {κ : Type} (s : Scheduler κ) (W : World) {m : Manager} (h : Agree m) :
    Agree (Manager.SendWork s W m).m := by
  rcases SendWork_maps s W m with ⟨hw, ht⟩ | ⟨id, name, hnew, hw, ht⟩
  · exact Agree_congr hw ht h
  · exact Agree_assign h id name hnew hw ht

theorem Agree_AddTask {m m1 : Manager} {te : TaskEvent} (h : Agree m)
    (ha : m.AddTask te = some m1) : Agree m1 := by
  unfold Manager.AddTask at ha
  split at ha
  · cases ha
  · cases ha
    exact Agree_congr rfl rfl h

theorem New_WorkerTaskMap_values (workers : List String) :
    ∀ (acc : GoMap String (List UUID)), acc.keys.Nodup → (∀ p ∈ acc, p.2 = []) →
      (workers.foldl (fun acc w => acc.set w []) acc).keys.Nodup ∧
      ∀ p ∈ workers.foldl (fun acc w => acc.set w []) acc, p.2 = [] := by
  induction workers with
  | nil => intro acc hn hv; exact ⟨hn, hv⟩
  | cons w ws ih =>
    intro acc hn hv
    refine ih (acc.set w []) (GoMap.nodup_keys_set hn _ _) ?_
    intro p hp
    obtain ⟨k, v⟩ := p
    have hg := GoMap.get_of_mem (GoMap.nodup_keys_set hn w []) hp
    rw [GoMap.get_set] at hg
    split at hg
    · cases hg; rfl
    · exact hv _ (GoMap.mem_of_get hg)

theorem Agree_New (workers : List String) : Agree (New workers) := by
  obtain ⟨hn, hv⟩ := New_WorkerTaskMap_values workers [] (by simp [GoMap.keys]) (by simp)
  refine ⟨hn, ?_, ?_⟩
  · intro id w
    constructor
    · intro h; simp [New, GoMap.get] at h
    · intro h
      cases hg : (New workers).WorkerTaskMap.get w with
      | none => rw [hg] at h; simp at h
      | some l =>
        rw [hg] at h
        have := hv _ (GoMap.mem_of_get hg)
        simp only at this
        subst this
        simp at h
  · intro id w h
    simp [New, GoMap.get] at h

theorem Agree_steps {κ : Type} :
    ∀ (steps : List (Step κ)) (m : Manager), Agree m → Agree (Manager.steps steps m).1 := by
  intro steps
  induction steps with
  | nil => intro m h; exact h
  | cons st rest ih =>
    intro m h
    cases st with
    | AddTask te =>
      simp only [Manager.steps]
      split
      · exact h
      · rename_i m1 ha
        exact ih m1 (Agree_AddTask h ha)
    | SendWork s W =>
      simp only [Manager.steps]
      split
      · exact Agree_SendWork s W h
      · exact ih _ (Agree_SendWork s W h)

theorem Keyed_Put {db : store.InMemoryTaskStore Task} (h : Keyed db) {k : String} {v : Task}
    (hv : v.ID.String = k) : Keyed (db.Put k v) := by
  refine ⟨GoMap.nodup_keys_set h.1 _ _, ?_⟩
  intro p hp
  rcases GoMap.mem_set hp with h1 | h1
  · subst h1; exact hv
  · exact h.2 p h1

theorem Keyed_Get {db : store.InMemoryTaskStore Task} (h : Keyed db) {k : String} {t : Task}
    (hg : db.Get k = some t) : t.ID.String = k :=
  h.2 (k, t) (GoMap.mem_of_get hg)

theorem Keyed_List {db : store.InMemoryTaskStore Task} (h : Keyed db) {t : Task}
    (ht : t ∈ db.List) : db.Get t.ID.String = some t := by
  obtain ⟨p, hp, hpt⟩ := List.mem_map.mp ht
  obtain ⟨k, v⟩ := p
  simp only at hpt
  subst hpt
  have hk := h.2 _ hp
  simp only at hk
  rw [hk]
  exact GoMap.get_of_mem h.1 hp

theorem Keyed_List_nodup {db : store.InMemoryTaskStore Task} (h : Keyed db) :
    (db.List.map (fun t => t.ID.String)).Nodup := by
  have : db.List.map (fun t => t.ID.String) = db.Db.keys := by
    simp only [store.InMemoryTaskStore.List, GoMap.values, GoMap.keys, List.map_map]
    apply List.map_congr_left
    intro p hp
    exact h.2 p hp
  rw [this]
  exact h.1

theorem Get_Put (db : store.InMemoryTaskStore Task) (k k1 : String) (v : Task) :
    (db.Put k v).Get k1 = if k = k1 then some v else db.Get k1 :=
  GoMap.get_set db.Db k k1 v

theorem restartTask_TaskDb (W : World) (o : Outcome) (t : Task) :
    (Manager.restartTask W o t).m.TaskDb = o.m.TaskDb.Put t.ID.String (restarted t) := by
  unfold Manager.restartTask
  dsimp only
  split
  · split
    · split <;> rfl
    · rfl
  · rfl

theorem restartTask_trace (W : World) (o : Outcome) (t u : Task)
    (h : Call.restartTask u ∈ (Manager.restartTask W o t).trace) :
    Call.restartTask u ∈ o.trace ∨ u = t := by
  unfold Manager.restartTask at h
  dsimp only at h
  split at h
  · split at h
    · split at h <;>
        simpa [List.mem_append] using h
    · simpa [List.mem_append] using h
  · simpa [List.mem_append] using h

/-- One iteration of the health-check loop leaves the task store as it was or
rewrites the visited task as `restartTask` does, the latter only for a task
that is `Running` or `Failed` with fewer than three restarts. -/
theorem doHealthCheck_TaskDb (W : World) (o : Outcome) (t : Task) :
    (Manager.doHealthCheck W o t).m.TaskDb = o.m.TaskDb ∨
    ((t.State = Running ∨ t.State = Failed) ∧ t.RestartCount < 3 ∧
      (Manager.doHealthCheck W o t).m.TaskDb = o.m.TaskDb.Put t.ID.String (restarted t)) := by
  unfold Manager.doHealthCheck
  split
  · rename_i h
    split
    · exact Or.inl rfl
    · dsimp only
      split
      · split
        · exact Or.inr ⟨Or.inl h.1, h.2, by rw [restartTask_TaskDb]⟩
        · exact Or.inl rfl
      · exact Or.inl rfl
  · split
    · rename_i h
      exact Or.inr ⟨Or.inr h.1, h.2, by rw [restartTask_TaskDb]⟩
    · exact Or.inl rfl

theorem doHealthCheck_trace (W : World) (o : Outcome) (t u : Task)
    (h : Call.restartTask u ∈ (Manager.doHealthCheck W o t).trace) :
    Call.restartTask u ∈ o.trace ∨
      (u = t ∧ t.RestartCount < 3 ∧ (t.State = Running ∨ t.State = Failed)) := by
  unfold Manager.doHealthCheck at h
  unfold Manager.checkTaskHealth at h
  split at h
  · rename_i hc
    have key : ∀ calls : List Call, (∀ c ∈ calls, ∃ url, c = Call.Get url) →
        ∀ o1 : Outcome, o1.trace = o.trace ++ calls →
        Call.restartTask u ∈ (Manager.restartTask W o1 t).trace →
        Call.restartTask u ∈ o.trace ∨
          (u = t ∧ t.RestartCount < 3 ∧ (t.State = Running ∨ t.State = Failed)) := by
      intro calls hcalls o1 ho1 hr
      rcases restartTask_trace W o1 t u hr with h1 | h1
      · rw [ho1, List.mem_append] at h1
        rcases h1 with h1 | h1
        · exact Or.inl h1
        · obtain ⟨url, hu⟩ := hcalls _ h1
          cases hu
      · exact Or.inr ⟨h1, hc.2, Or.inl hc.1⟩
    have plain : ∀ calls : List Call, (∀ c ∈ calls, ∃ url, c = Call.Get url) →
        Call.restartTask u ∈ o.trace ++ calls → Call.restartTask u ∈ o.trace := by
      intro calls hcalls hm
      rcases List.mem_append.mp hm with h1 | h1
      · exact h1
      · obtain ⟨url, hu⟩ := hcalls _ h1
        cases hu
    dsimp only at h
    split at h
    · exact Or.inl h
    · rename_i err calls heq
      have hcalls : ∀ c ∈ calls, ∃ url, c = Call.Get url := by
        split at heq
        · cases heq
        · cases heq; simp
        · split at heq
          · cases heq; simp
          · split at heq <;> (cases heq; simp)
      split at h
      · split at h
        · exact key calls hcalls _ rfl h
        · exact Or.inl (plain calls hcalls h)
      · exact Or.inl (plain calls hcalls h)
  · split at h
    · rename_i hc
      rcases restartTask_trace W o t u h with h1 | h1
      · exact Or.inl h1
      · exact Or.inr ⟨h1, hc.2, Or.inr hc.1⟩
    · exact Or.inl h

theorem doHealthCheck_Keyed (W : World) (o : Outcome) (t : Task) (h : Keyed o.m.TaskDb) :
    Keyed (Manager.doHealthCheck W o t).m.TaskDb := by
  rcases doHealthCheck_TaskDb W o t with h1 | ⟨_, _, h1⟩
  · rw [h1]; exact h
  · rw [h1]; exact Keyed_Put h rfl

theorem doHealthChecksLoop_Keyed (W : World) :
    ∀ (ts : List Task) (o : Outcome), Keyed o.m.TaskDb →
      Keyed (Manager.doHealthChecksLoop W ts o).m.TaskDb := by
  intro ts
  induction ts with
  | nil => intro o h; exact h
  | cons t ts ih =>
    intro o h
    simp only [Manager.doHealthChecksLoop]
    split
    · exact h
    · exact ih _ (doHealthCheck_Keyed W o t h)

/-- Effect of the health-check loop on the task kept under `id`: it is left
as it was, or it is the restarted form of the task of the list that carries
this identifier. -/
theorem doHealthChecksLoop_Get (W : World) :
    ∀ (ts : List Task) (o : Outcome), (ts.map (fun t => t.ID.String)).Nodup →
      ∀ (id : String) (t0 : Task), o.m.TaskDb.Get id = some t0 →
      ∃ t1, (Manager.doHealthChecksLoop W ts o).m.TaskDb.Get id = some t1 ∧
        (t1 = t0 ∨ ∃ t ∈ ts, t.ID.String = id ∧ t.RestartCount < 3 ∧
          (t.State = Running ∨ t.State = Failed) ∧ t1 = restarted t) := by
  intro ts
  induction ts with
  | nil => intro o _ id t0 h; exact ⟨t0, h, Or.inl rfl⟩
  | cons t ts ih =>
    intro o hn id t0 hg
    simp only [List.map_cons, List.nodup_cons] at hn
    simp only [Manager.doHealthChecksLoop]
    split
    · exact ⟨t0, hg, Or.inl rfl⟩
    · rcases doHealthCheck_TaskDb W o t with h1 | ⟨hs, hr, h1⟩
      · obtain ⟨t1, hg1, hrel⟩ := ih (Manager.doHealthCheck W o t) hn.2 id t0 (by rw [h1]; exact hg)
        refine ⟨t1, hg1, ?_⟩
        rcases hrel with h2 | ⟨t2, hm, h2⟩
        · exact Or.inl h2
        · exact Or.inr ⟨t2, List.mem_cons_of_mem _ hm, h2⟩
      · by_cases hid : t.ID.String = id
        · have hg0 : (Manager.doHealthCheck W o t).m.TaskDb.Get id = some (restarted t) := by
            rw [h1, Get_Put, if_pos hid]
          obtain ⟨t1, hg1, hrel⟩ := ih (Manager.doHealthCheck W o t) hn.2 id _ hg0
          refine ⟨t1, hg1, ?_⟩
          rcases hrel with h2 | ⟨t2, hm, h2, _⟩
          · exact Or.inr ⟨t, List.mem_cons_self _ _, hid, hr, hs, h2⟩
          · exfalso
            apply hn.1
            rw [hid, ← h2]
            exact List.mem_map.mpr ⟨t2, hm, rfl⟩
        · have hg0 : (Manager.doHealthCheck W o t).m.TaskDb.Get id = some t0 := by
            rw [h1, Get_Put, if_neg hid]; exact hg
          obtain ⟨t1, hg1, hrel⟩ := ih (Manager.doHealthCheck W o t) hn.2 id t0 hg0
          refine ⟨t1, hg1, ?_⟩
          rcases hrel with h2 | ⟨t2, hm, h2⟩
          · exact Or.inl h2
          · exact Or.inr ⟨t2, List.mem_cons_of_mem _ hm, h2⟩

theorem doHealthChecksLoop_trace (W : World) (u : Task) :
    ∀ (ts : List Task) (o : Outcome),
      Call.restartTask u ∈ (Manager.doHealthChecksLoop W ts o).trace →
      Call.restartTask u ∈ o.trace ∨
        (u ∈ ts ∧ u.RestartCount < 3 ∧ (u.State = Running ∨ u.State = Failed)) := by
  intro ts
  induction ts with
  | nil => intro o h; exact Or.inl h
  | cons t ts ih =>
    intro o h
    simp only [Manager.doHealthChecksLoop] at h
    split at h
    · exact Or.inl h
    · rcases ih _ h with h1 | ⟨hm, h1⟩
      · rcases doHealthCheck_trace W o t u h1 with h2 | ⟨h2, h3⟩
        · exact Or.inl h2
        · subst h2; exact Or.inr ⟨List.mem_cons_self _ _, h3⟩
      · exact Or.inr ⟨List.mem_cons_of_mem _ hm, h1⟩

/-- One `doHealthChecks` tick on a keyed store, seen from the task `t` kept
under `id`. -/
theorem doHealthChecks_Get (W : World) (m : Manager) (hk : Keyed m.TaskDb) (id : String)
    (t : Task) (ht : m.TaskDb.Get id = some t) :
    ∃ t1, (Manager.doHealthChecks W m).m.TaskDb.Get id = some t1 ∧
      (t1 = t ∨ (t.RestartCount < 3 ∧ (t.State = Running ∨ t.State = Failed) ∧
        t1 = restarted t)) := by
  obtain ⟨t1, hg, hrel⟩ := doHealthChecksLoop_Get W m.GetTasks
    { m := m, trace := [], fault := false } (Keyed_List_nodup hk) id t ht
  refine ⟨t1, hg, ?_⟩
  rcases hrel with h | ⟨t2, hm, hid, hr, hs, h⟩
  · exact Or.inl h
  · have := Keyed_List hk hm
    rw [hid, ht] at this
    cases this
    exact Or.inr ⟨hr, hs, h⟩

theorem doHealthChecks_trace (W : World) (m : Manager) (u : Task)
    (h : Call.restartTask u ∈ (Manager.doHealthChecks W m).trace) :
    u ∈ m.GetTasks ∧ u.RestartCount < 3 ∧ (u.State = Running ∨ u.State = Failed) := by
  rcases doHealthChecksLoop_trace W u m.GetTasks _ h with h1 | h1
  · simp at h1
  · exact h1

theorem reconciled_reconciled (task u1 u2 : Task) :
    reconciled (reconciled task u1) u2 = reconciled task u2 := rfl

/-- One element of a worker's report leaves the task store as it was or
rewrites the task kept under the reported identifier. -/
theorem updateTask_TaskDb (o : Outcome) (e : Option Task) :
    (Manager.updateTask o e).m.TaskDb = o.m.TaskDb ∨
    ∃ u task, e = some u ∧ o.m.TaskDb.Get u.ID.String = some task ∧
      (Manager.updateTask o e).m.TaskDb = o.m.TaskDb.Put task.ID.String (reconciled task u) := by
  unfold Manager.updateTask
  split
  · exact Or.inl rfl
  · rename_i u
    split
    · exact Or.inl rfl
    · rename_i task hg
      exact Or.inr ⟨u, task, rfl, hg, rfl⟩

theorem updateTask_trace (o : Outcome) (e : Option Task) :
    (Manager.updateTask o e).trace = o.trace := by
  unfold Manager.updateTask
  split
  · rfl
  · split <;> rfl

/-- Effect of one worker's report on the task kept under `id`, on a keyed
store: the store stays keyed, and the task is as before or carries the five
fields of a reported task with this identifier. -/
theorem updateTasksOf_Get :
    ∀ (ts : List (Option Task)) (o : Outcome), Keyed o.m.TaskDb →
      Keyed (Manager.updateTasksOf ts o).m.TaskDb ∧
      (Manager.updateTasksOf ts o).trace = o.trace ∧
      ∀ (id : String) (t1 : Task), o.m.TaskDb.Get id = some t1 →
        ∃ t2, (Manager.updateTasksOf ts o).m.TaskDb.Get id = some t2 ∧
          (t2 = t1 ∨ ∃ u, some u ∈ ts ∧ u.ID.String = id ∧ t2 = reconciled t1 u) := by
  intro ts
  induction ts with
  | nil => intro o hk; exact ⟨hk, rfl, fun id t1 h => ⟨t1, h, Or.inl rfl⟩⟩
  | cons e ts ih =>
    intro o hk
    simp only [Manager.updateTasksOf]
    split
    · exact ⟨hk, rfl, fun id t1 h => ⟨t1, h, Or.inl rfl⟩⟩
    · rcases updateTask_TaskDb o e with h1 | ⟨u, task, he, hg, h1⟩
      · obtain ⟨hk2, htr, hget⟩ := ih (Manager.updateTask o e) (by rw [h1]; exact hk)
        refine ⟨hk2, by rw [htr, updateTask_trace], ?_⟩
        intro id t1 ht1
        obtain ⟨t2, hg2, hrel⟩ := hget id t1 (by rw [h1]; exact ht1)
        refine ⟨t2, hg2, ?_⟩
        rcases hrel with h | ⟨u, hu, h⟩
        · exact Or.inl h
        · exact Or.inr ⟨u, List.mem_cons_of_mem _ hu, h⟩
      · have hkey : task.ID.String = u.ID.String := Keyed_Get hk hg
        obtain ⟨hk2, htr, hget⟩ := ih (Manager.updateTask o e)
          (by rw [h1]; exact Keyed_Put hk rfl)
        refine ⟨hk2, by rw [htr, updateTask_trace], ?_⟩
        intro id t1 ht1
        by_cases hid : task.ID.String = id
        · have htask : task = t1 := by
            rw [← hkey, hid, ht1] at hg
            exact (Option.some.inj hg).symm
          subst htask
          obtain ⟨t2, hg2, hrel⟩ := hget id (reconciled task u)
            (by rw [h1, Get_Put, if_pos hid])
          refine ⟨t2, hg2, Or.inr ?_⟩
          rcases hrel with h | ⟨u2, hu2, hid2, h⟩
          · exact ⟨u, by rw [he]; exact List.mem_cons_self _ _, by rw [← hkey, hid], h⟩
          · exact ⟨u2, List.mem_cons_of_mem _ hu2, hid2, by rw [h, reconciled_reconciled]⟩
        · obtain ⟨t2, hg2, hrel⟩ := hget id t1 (by rw [h1, Get_Put, if_neg hid]; exact ht1)
          refine ⟨t2, hg2, ?_⟩
          rcases hrel with h | ⟨u2, hu2, h⟩
          · exact Or.inl h
          · exact Or.inr ⟨u2, List.mem_cons_of_mem _ hu2, h⟩

/-- Effect of the reconciliation loop on the task kept under `id`, on a keyed
store: the task is as before or carries the five fields of a task with this
identifier that a worker reported in answer to a `GET /task`; the calls added
to the trace are `GET` requests. -/
theorem updateTasksLoop_Get (W : World) :
    ∀ (ws : List String) (o : Outcome), Keyed o.m.TaskDb →
      Keyed (Manager.updateTasksLoop W ws o).m.TaskDb ∧
      (∀ c ∈ (Manager.updateTasksLoop W ws o).trace, c ∈ o.trace ∨ ∃ url, c = Call.Get url) ∧
      ∀ (id : String) (t1 : Task), o.m.TaskDb.Get id = some t1 →
        ∃ t2, (Manager.updateTasksLoop W ws o).m.TaskDb.Get id = some t2 ∧
          (t2 = t1 ∨ ∃ n url status tasks u, W.GetTasks n url = some (status, some tasks) ∧
            some u ∈ tasks ∧ u.ID.String = id ∧ t2 = reconciled t1 u) := by
  intro ws
  induction ws with
  | nil => intro o hk; exact ⟨hk, fun c hc => Or.inl hc, fun id t1 h => ⟨t1, h, Or.inl rfl⟩⟩
  | cons w ws ih =>
    intro o hk
    have skip : ∀ o1 : Outcome, o1.m = o.m →
        o1.trace = o.trace ++ [Call.Get ("http://" ++ w ++ "/task")] →
        Keyed (Manager.updateTasksLoop W ws o1).m.TaskDb ∧
        (∀ c ∈ (Manager.updateTasksLoop W ws o1).trace, c ∈ o.trace ∨ ∃ url, c = Call.Get url) ∧
        ∀ (id : String) (t1 : Task), o.m.TaskDb.Get id = some t1 →
          ∃ t2, (Manager.updateTasksLoop W ws o1).m.TaskDb.Get id = some t2 ∧
            (t2 = t1 ∨ ∃ n url status tasks u, W.GetTasks n url = some (status, some tasks) ∧
              some u ∈ tasks ∧ u.ID.String = id ∧ t2 = reconciled t1 u) := by
      intro o1 hm htr
      obtain ⟨hk2, htr2, hget⟩ := ih o1 (by rw [hm]; exact hk)
      refine ⟨hk2, ?_, fun id t1 h => hget id t1 (by rw [hm]; exact h)⟩
      intro c hc
      rcases htr2 c hc with h | h
      · rw [htr, List.mem_append] at h
        rcases h with h | h
        · exact Or.inl h
        · exact Or.inr ⟨_, List.mem_singleton.mp h⟩
      · exact Or.inr h
    simp only [Manager.updateTasksLoop]
    split
    · exact ⟨hk, fun c hc => Or.inl hc, fun id t1 h => ⟨t1, h, Or.inl rfl⟩⟩
    · split
      · exact skip _ rfl rfl
      · rename_i status body hans
        split
        · exact skip _ rfl rfl
        · split
          · exact skip _ rfl rfl
          · rename_i tasks
            obtain ⟨hk1, htr1, hget1⟩ := updateTasksOf_Get tasks
              { o with trace := o.trace ++ [Call.Get ("http://" ++ w ++ "/task")] } hk
            obtain ⟨hk2, htr2, hget2⟩ := ih _ hk1
            refine ⟨hk2, ?_, ?_⟩
            · intro c hc
              rcases htr2 c hc with h | h
              · rw [htr1, List.mem_append] at h
                rcases h with h | h
                · exact Or.inl h
                · exact Or.inr ⟨_, List.mem_singleton.mp h⟩
              · exact Or.inr h
            · intro id t1 ht1
              obtain ⟨t2, hg2, hrel2⟩ := hget1 id t1 ht1
              obtain ⟨t3, hg3, hrel3⟩ := hget2 id t2 hg2
              refine ⟨t3, hg3, ?_⟩
              rcases hrel3 with h3 | ⟨n, url, st, tk, u, hW, hu, hid, h3⟩
              · rcases hrel2 with h2 | ⟨u, hu, hid, h2⟩
                · exact Or.inl (by rw [h3, h2])
                · exact Or.inr ⟨_, _, status, tasks, u, hans, hu, hid, by rw [h3, h2]⟩
              · refine Or.inr ⟨n, url, st, tk, u, hW, hu, hid, ?_⟩
                rcases hrel2 with h2 | ⟨u2, _, _, h2⟩
                · rw [h3, h2]
                · rw [h3, h2, reconciled_reconciled]

theorem updateTasks_trace (W : World) (m : Manager) (hk : Keyed m.TaskDb) (u : Task) :
    Call.restartTask u ∉ (Manager.updateTasks W m).trace := by
  intro h
  obtain ⟨_, htr, _⟩ := updateTasksLoop_Get W m.Workers { m := m, trace := [], fault := false } hk
  rcases htr _ h with h1 | ⟨url, h1⟩
  · simp at h1
  · cases h1

theorem doHealthChecks_Keyed (W : World) (m : Manager) (hk : Keyed m.TaskDb) :
    Keyed (Manager.doHealthChecks W m).m.TaskDb :=
  doHealthChecksLoop_Keyed W m.GetTasks { m := m, trace := [], fault := false } hk

/-- One tick of either loop, seen from the task `t` kept under `id` of a keyed
store: the store stays keyed; the restart counter is unchanged or, when it
was below 3, increased by 1; and a `restartTask` call of the tick for a task
with this identifier means the counter was below 3. -/
theorem tick_Get (k : Tick) (m : Manager) (hk : Keyed m.TaskDb) (id : String) (t : Task)
    (ht : m.TaskDb.Get id = some t) :
    Keyed (Manager.tick k m).m.TaskDb ∧
    (∃ t1, (Manager.tick k m).m.TaskDb.Get id = some t1 ∧
      (t1.RestartCount = t.RestartCount ∨
        (t.RestartCount < 3 ∧ t1.RestartCount = t.RestartCount + 1))) ∧
    (∀ u, Call.restartTask u ∈ (Manager.tick k m).trace →
      u.ID.String = id → t.RestartCount < 3) := by
  cases k with
  | doHealthChecks W =>
    refine ⟨doHealthChecks_Keyed W m hk, ?_, ?_⟩
    · obtain ⟨t1, hg, hrel⟩ := doHealthChecks_Get W m hk id t ht
      refine ⟨t1, hg, ?_⟩
      rcases hrel with h | ⟨hr, _, h⟩
      · exact Or.inl (by rw [h])
      · exact Or.inr ⟨hr, by rw [h]; rfl⟩
    · intro u hu hid
      obtain ⟨hm, hlt, _⟩ := doHealthChecks_trace W m u hu
      have := Keyed_List hk hm
      rw [hid, ht] at this
      cases this
      exact hlt
  | updateTasks W =>
    obtain ⟨hk2, _, hget⟩ :=
      updateTasksLoop_Get W m.Workers { m := m, trace := [], fault := false } hk
    refine ⟨hk2, ?_, ?_⟩
    · obtain ⟨t1, hg, hrel⟩ := hget id t ht
      refine ⟨t1, hg, Or.inl ?_⟩
      rcases hrel with h | ⟨_, _, _, _, u, _, _, _, h⟩
      · rw [h]
      · rw [h]; rfl
    · intro u hu
      exact absurd hu (updateTasks_trace W m hk u)

/-- Over any sequence of ticks the restart counter of the task kept under `id`
does not decrease, stays at most 3 when it started at most 3, and does not
move once it is 3 or more, in which case no tick restarts the task. -/
theorem ticks_Get :
    ∀ (ks : List Tick) (o : Outcome), Keyed o.m.TaskDb →
      ∀ (id : String) (t : Task), o.m.TaskDb.Get id = some t →
      ∃ t1, (Manager.ticks ks o).m.TaskDb.Get id = some t1 ∧
        t.RestartCount ≤ t1.RestartCount ∧
        (t.RestartCount ≤ 3 → t1.RestartCount ≤ 3) ∧
        (3 ≤ t.RestartCount → t1.RestartCount = t.RestartCount ∧
          ∀ u, Call.restartTask u ∈ (Manager.ticks ks o).trace →
            Call.restartTask u ∈ o.trace ∨ u.ID.String ≠ id) := by
  intro ks
  induction ks with
  | nil =>
    intro o _ id t ht
    exact ⟨t, ht, le_rfl, fun h => h, fun _ => ⟨rfl, fun u hu => Or.inl hu⟩⟩
  | cons k ks ih =>
    intro o hk id t ht
    simp only [Manager.ticks]
    split
    · exact ⟨t, ht, le_rfl, fun h => h, fun _ => ⟨rfl, fun u hu => Or.inl hu⟩⟩
    · obtain ⟨hk1, ⟨t1, hg1, hrel⟩, hcall⟩ := tick_Get k o.m hk id t ht
      obtain ⟨t2, hg2, hle, hcap, hstay⟩ :=
        ih { m := (Manager.tick k o.m).m, trace := o.trace ++ (Manager.tick k o.m).trace,
             fault := (Manager.tick k o.m).fault } hk1 id t1 hg1
      refine ⟨t2, hg2, by omega, fun h => hcap (by omega), ?_⟩
      intro h3
      have h31 : 3 ≤ t1.RestartCount := by omega
      obtain ⟨heq, htr⟩ := hstay h31
      refine ⟨by omega, ?_⟩
      intro u hu
      rcases htr u hu with h4 | h4
      · rcases List.mem_append.mp h4 with h5 | h5
        · exact Or.inl h5
        · right
          intro hid
          have := hcall u h5 hid
          omega
      · exact Or.inr h4

/-- What `SendWork` does to the task store: nothing, or it persists the task
of the dequeued event, which had no worker, with `State = Scheduled`; and
when the POST it then made, the last call of its trace, was answered 201, it
puts the task decoded from that answer in its place. -/
theorem SendWork_TaskDb {κ : Type} (s : Scheduler κ) (W : World) (m : Manager) :
    (Manager.SendWork s W m).m.TaskDb = m.TaskDb ∨
    ∃ te : TaskEvent, m.TaskWorkerMap.get te.Task.ID = none ∧
      ((Manager.SendWork s W m).m.TaskDb
          = m.TaskDb.Put te.Task.ID.String { te.Task with State := Scheduled } ∨
        ∃ url body,
          (Manager.SendWork s W m).trace.getLast? = some (Call.Post url te) ∧
          W.Post ((Manager.SendWork s W m).trace.length - 1) url te = some (201, body) ∧
          (Manager.SendWork s W m).m.TaskDb
            = (m.TaskDb.Put te.Task.ID.String { te.Task with State := Scheduled }).Put
                te.Task.ID.String body) := by
  unfold Manager.SendWork
  split
  · exact Or.inl rfl
  · split
    · exact Or.inl rfl
    · exact Or.inl rfl
    · rename_i te q hd
      dsimp only
      split
      · split
        · exact Or.inl rfl
        · split
          · exact Or.inl (by rw [stopTask_m])
          · exact Or.inl rfl
      · rename_i hnew
        split
        · exact Or.inl rfl
        · exact Or.inl rfl
        · rename_i w calls hsel
          refine Or.inr ⟨te, hnew, ?_⟩
          split
          · split
            · split <;> exact Or.inl rfl
            · rename_i status body hpost
              split
              · exact Or.inl rfl
              · rename_i hst
                have h201 : status = 201 := by simpa using hst
                subst h201
                refine Or.inr ⟨"http://" ++ w.Name ++ "/task", body, by simp, ?_, rfl⟩
                simpa using hpost
          · exact Or.inl rfl

end manager

/-! ## Lemmas on the known-task branch and on reconciliation -/

namespace manager

open task node

/-- The manager state `SendWork` leaves when it dispatches the only pending
event `te`, for a task without worker, to the node `w` and the POST fails in
transport: `q2` is the pending queue, which holds exactly `te` again. -/
theorem SendWork_transport_failure_state {κ : Type} (s : Scheduler κ) (W : World) (m : Manager)
    (te : TaskEvent) (w : Node) (calls : List Call)
    (hq : queue.Rep m.Pending [some te])
    (hnew : m.TaskWorkerMap.get te.Task.ID = none)
    (hsel : m.SelectWorker s te.Task = (.ok (some w), calls))
    (hmar : W.Marshal calls.length te = true)
    (hpost : W.Post calls.length ("http://" ++ w.Name ++ "/task") te = none) :
    ∃ q2, queue.Rep q2 [some te] ∧
      Manager.SendWork s W m =
        { m := { m with
            Pending := q2,
            EventDb := m.EventDb.Put te.ID.String te,
            WorkerTaskMap :=
              m.WorkerTaskMap.set w.Name
                (((m.WorkerTaskMap.get w.Name).getD []) ++ [te.Task.ID]),
            TaskWorkerMap := m.TaskWorkerMap.set te.Task.ID w.Name,
            TaskDb := m.TaskDb.Put te.Task.ID.String { te.Task with State := Scheduled } },
          trace := calls ++ [Call.Post ("http://" ++ w.Name ++ "/task") te],
          fault := false } := by
  obtain ⟨q1, hd, hr1⟩ := queue.Rep_Dequeue hq none
  obtain ⟨q2, he, hr2⟩ := queue.Rep_Enqueue hr1 (some te)
  have hlen : m.Pending.Length ≠ 0 := by rw [queue.Rep_Length hq]; simp
  have hsel1 : Manager.SelectWorker s
      { m with Pending := q1, EventDb := m.EventDb.Put te.ID.String te } te.Task
        = (.ok (some w), calls) := hsel
  refine ⟨q2, hr2, ?_⟩
  simp only [Manager.SendWork, if_neg hlen, hd, hnew, hsel1, hmar, if_true, hpost, he]

/-- `SendWork` on a manager whose only pending event `te` is for a task that
already has a worker and is persisted as `Scheduled`: whatever the state the
event asks for, the event is consumed and nothing else happens. -/
theorem SendWork_known_scheduled {κ : Type} (s : Scheduler κ) (W : World) (m : Manager)
    (te : TaskEvent) (worker : String) (P : Task)
    (hq : queue.Rep m.Pending [some te])
    (hknown : m.TaskWorkerMap.get te.Task.ID = some worker)
    (hP : m.TaskDb.Get te.Task.ID.String = some P)
    (hs : P.State = Scheduled) :
    ∃ q1, queue.Rep q1 [] ∧
      Manager.SendWork s W m =
        { m := { m with Pending := q1, EventDb := m.EventDb.Put te.ID.String te },
          trace := [], fault := false } := by
  obtain ⟨q1, hd, hr1⟩ := queue.Rep_Dequeue hq none
  have hlen : m.Pending.Length ≠ 0 := by rw [queue.Rep_Length hq]; simp
  have hcond : ¬ (te.State = Completed ∧ IsValidStateTransition P.State te.State = true) := by
    rintro ⟨h1, h2⟩
    rw [hs, h1] at h2
    exact absurd h2 (by decide)
  refine ⟨q1, hr1, ?_⟩
  simp only [Manager.SendWork, if_neg hlen, hd, hknown, hP, if_neg hcond]

theorem updateTasksOf_of_fault :
    ∀ (ts : List (Option Task)) (o : Outcome), o.fault = true →
      Manager.updateTasksOf ts o = o := by
  intro ts o h
  cases ts with
  | nil => rfl
  | cons t ts => simp [Manager.updateTasksOf, h]

theorem updateTasksOf_append :
    ∀ (ts rs : List (Option Task)) (o : Outcome),
      Manager.updateTasksOf (ts ++ rs) o
        = Manager.updateTasksOf rs (Manager.updateTasksOf ts o) := by
  intro ts
  induction ts with
  | nil => intro rs o; rfl
  | cons t ts ih =>
    intro rs o
    by_cases h : o.fault = true
    · rw [updateTasksOf_of_fault _ o h, updateTasksOf_of_fault _ o h,
        updateTasksOf_of_fault _ o h]
    · simp only [List.cons_append, Manager.updateTasksOf, if_neg h]
      exact ih rs _

/-- The manager state and the fault flag that the inner loop reaches do not
depend on the trace it starts from, and the loop adds no call. -/
theorem updateTasksOf_congr :
    ∀ (ts : List (Option Task)) (o o1 : Outcome), o1.m = o.m → o1.fault = o.fault →
      (Manager.updateTasksOf ts o1).m = (Manager.updateTasksOf ts o).m ∧
      (Manager.updateTasksOf ts o1).fault = (Manager.updateTasksOf ts o).fault ∧
      (Manager.updateTasksOf ts o1).trace = o1.trace := by
  intro ts
  induction ts with
  | nil => intro o o1 hm hf; exact ⟨hm, hf, rfl⟩
  | cons t ts ih =>
    intro o o1 hm hf
    simp only [Manager.updateTasksOf]
    by_cases h : o.fault = true
    · have h1 : o1.fault = true := by rw [hf]; exact h
      rw [if_pos h, if_pos h1]
      exact ⟨hm, hf, rfl⟩
    · have h1 : ¬ o1.fault = true := by rw [hf]; exact h
      rw [if_neg h, if_neg h1]
      have hstep : (Manager.updateTask o1 t).m = (Manager.updateTask o t).m ∧
          (Manager.updateTask o1 t).fault = (Manager.updateTask o t).fault := by
        unfold Manager.updateTask
        cases t with
        | none => exact ⟨hm, rfl⟩
        | some u =>
          dsimp only
          rw [hm]
          split
          · exact ⟨hm, hf⟩
          · exact ⟨rfl, hf⟩
      obtain ⟨h2, h3, h4⟩ := ih (Manager.updateTask o t) (Manager.updateTask o1 t) hstep.1 hstep.2
      exact ⟨h2, h3, by rw [h4, updateTask_trace]⟩

/-- The outer loop of `updateTasks` reaches the manager state that the inner
loop reaches on the elements of `reportsFrom`, read in one go. -/
theorem updateTasksLoop_reports (W : World) :
    ∀ (ws : List String) (o : Outcome),
      (Manager.updateTasksLoop W ws o).m
        = (Manager.updateTasksOf (Manager.reportsFrom W o.trace.length ws) o).m ∧
      (Manager.updateTasksLoop W ws o).fault
        = (Manager.updateTasksOf (Manager.reportsFrom W o.trace.length ws) o).fault := by
  intro ws
  induction ws with
  | nil => intro o; exact ⟨rfl, rfl⟩
  | cons w ws ih =>
    intro o
    by_cases hf : o.fault = true
    · rw [updateTasksOf_of_fault _ o hf]
      simp [Manager.updateTasksLoop, hf]
    · have skip : ∀ o1 : Outcome, o1.m = o.m → o1.fault = o.fault →
          o1.trace.length = o.trace.length + 1 →
          (Manager.updateTasksLoop W ws o1).m
            = (Manager.updateTasksOf (Manager.reportsFrom W (o.trace.length + 1) ws) o).m ∧
          (Manager.updateTasksLoop W ws o1).fault
            = (Manager.updateTasksOf (Manager.reportsFrom W (o.trace.length + 1) ws) o).fault := by
        intro o1 hm hfl hlen
        obtain ⟨h1, h2⟩ := ih o1
        rw [hlen] at h1 h2
        obtain ⟨h3, h4, _⟩ := updateTasksOf_congr
          (Manager.reportsFrom W (o.trace.length + 1) ws) o o1 hm hfl
        exact ⟨by rw [h1, h3], by rw [h2, h4]⟩
      simp only [Manager.updateTasksLoop, if_neg hf, Manager.reportsFrom]
      split
      · rename_i hans
        simp only [hans, List.nil_append]
        exact skip _ rfl rfl (by simp)
      · rename_i status body hans
        simp only [hans]
        split
        · rename_i hst
          have : (match (some (status, body) : Option (Int × Option (List (Option Task)))) with
              | some (status, some tasks) => if status = 200 then tasks else []
              | _ => []) = [] := by
            cases body with
            | none => rfl
            | some tasks => simp [hst]
          rw [this, List.nil_append]
          exact skip _ rfl rfl (by simp)
        · rename_i hst
          have hst200 : status = 200 := by simpa using hst
          split
          · exact skip _ rfl rfl (by simp)
          · rename_i tasks
            simp only [hst200, if_true]
            rw [updateTasksOf_append]
            obtain ⟨h3, h4, h5⟩ := updateTasksOf_congr tasks o
              { o with trace := o.trace ++ [Call.Get ("http://" ++ w ++ "/task")] } rfl rfl
            obtain ⟨h1, h2⟩ := ih (Manager.updateTasksOf tasks
              { o with trace := o.trace ++ [Call.Get ("http://" ++ w ++ "/task")] })
            rw [h5] at h1 h2
            simp only [List.length_append, List.length_singleton] at h1 h2
            obtain ⟨h6, h7, _⟩ := updateTasksOf_congr
              (Manager.reportsFrom W (o.trace.length + 1) ws) (Manager.updateTasksOf tasks o)
              (Manager.updateTasksOf tasks
                { o with trace := o.trace ++ [Call.Get ("http://" ++ w ++ "/task")] }) h3 h4
            exact ⟨by rw [h1, h6], by rw [h2, h7]⟩

theorem updateTask_Keyed (o : Outcome) (e : Option Task) (hk : Keyed o.m.TaskDb) :
    Keyed (Manager.updateTask o e).m.TaskDb ∧
    (Manager.updateTask o e).m.TaskDb.Db.keys = o.m.TaskDb.Db.keys := by
  rcases updateTask_TaskDb o e with h | ⟨u, task, _, hg, h⟩
  · rw [h]; exact ⟨hk, rfl⟩
  · rw [h]
    refine ⟨Keyed_Put hk rfl, ?_⟩
    have hkey : task.ID.String = u.ID.String := Keyed_Get hk hg
    have hmem : task.ID.String ∈ o.m.TaskDb.Db.keys := by
      rw [hkey]
      exact List.mem_map.mpr ⟨(u.ID.String, task), GoMap.mem_of_get hg, rfl⟩
    simp only [store.InMemoryTaskStore.Put]
    rw [GoMap.keys_set, if_pos hmem]

/-- The inner loop of `updateTasks` adds no key to a keyed store and removes
none. -/
theorem updateTasksOf_keys :
    ∀ (ts : List (Option Task)) (o : Outcome), Keyed o.m.TaskDb →
      (Manager.updateTasksOf ts o).m.TaskDb.Db.keys = o.m.TaskDb.Db.keys := by
  intro ts
  induction ts with
  | nil => intro o _; rfl
  | cons e ts ih =>
    intro o hk
    simp only [Manager.updateTasksOf]
    split
    · rfl
    · obtain ⟨hk1, hkeys⟩ := updateTask_Keyed o e hk
      rw [ih _ hk1, hkeys]

theorem updateTasksOf_no_fault :
    ∀ (ts : List (Option Task)) (o : Outcome), none ∉ ts → o.fault = false →
      (Manager.updateTasksOf ts o).fault = false := by
  intro ts
  induction ts with
  | nil => intro o _ h; exact h
  | cons e ts ih =>
    intro o hnone hf
    simp only [Manager.updateTasksOf, hf]
    simp only [List.mem_cons, not_or] at hnone
    apply ih _ hnone.2
    cases e with
    | none => exact absurd rfl hnone.1
    | some u =>
      unfold Manager.updateTask
      dsimp only
      split <;> exact hf

/-- When the elements read in a tick are `pre`, then the task `t`, then
`post`, no element of `pre` is null and no task of `post` carries the
identifier of `t`, the task kept under that identifier ends as it started
except for the five fields copied from `t`. -/
theorem updateTasksOf_last (pre post : List (Option Task)) (t t0 : Task) (o : Outcome)
    (hk : Keyed o.m.TaskDb) (hf : o.fault = false) (hpre : none ∉ pre)
    (hpost : ∀ u, some u ∈ post → u.ID.String ≠ t.ID.String)
    (hg : o.m.TaskDb.Get t.ID.String = some t0) :
    (Manager.updateTasksOf (pre ++ some t :: post) o).m.TaskDb.Get t.ID.String
      = some (reconciled t0 t) := by
  rw [updateTasksOf_append]
  obtain ⟨hk1, _, hget1⟩ := updateTasksOf_Get pre o hk
  obtain ⟨t1, hg1, hrel1⟩ := hget1 t.ID.String t0 hg
  have hf1 := updateTasksOf_no_fault pre o hpre hf
  have hrec : reconciled t1 t = reconciled t0 t := by
    rcases hrel1 with h | ⟨u, _, _, h⟩
    · rw [h]
    · rw [h, reconciled_reconciled]
  have hid : t1.ID.String = t.ID.String := Keyed_Get hk1 hg1
  have hstep : (Manager.updateTask (Manager.updateTasksOf pre o) (some t)).m.TaskDb
      = (Manager.updateTasksOf pre o).m.TaskDb.Put t1.ID.String (reconciled t1 t) := by
    unfold Manager.updateTask
    simp only [hg1]
    rfl
  have hk2 : Keyed (Manager.updateTask (Manager.updateTasksOf pre o) (some t)).m.TaskDb :=
    (updateTask_Keyed _ _ hk1).1
  have hg2 : (Manager.updateTask (Manager.updateTasksOf pre o) (some t)).m.TaskDb.Get t.ID.String
      = some (reconciled t0 t) := by
    rw [hstep, Get_Put, if_pos hid, hrec]
  simp only [Manager.updateTasksOf, hf1]
  obtain ⟨_, _, hget3⟩ := updateTasksOf_Get post _ hk2
  obtain ⟨t3, hg3, hrel3⟩ := hget3 t.ID.String _ hg2
  rcases hrel3 with h | ⟨u, hu, hid3, _⟩
  · simpa [h] using hg3
  · exact absurd hid3 (hpost u hu)

/-- The task kept under `id` of a keyed store after the inner loop of
`updateTasks`: it is as before, or it carries the five fields of a task with
this identifier that the loop read, no null element coming before it. -/
theorem updateTasksOf_read :
    ∀ (ts : List (Option Task)) (o : Outcome), Keyed o.m.TaskDb → o.fault = false →
      ∀ (id : String) (t1 : Task), o.m.TaskDb.Get id = some t1 →
        ∃ t2, (Manager.updateTasksOf ts o).m.TaskDb.Get id = some t2 ∧
          (t2 = t1 ∨ ∃ pre post u, ts = pre ++ some u :: post ∧ none ∉ pre ∧
            u.ID.String = id ∧ t2 = reconciled t1 u) := by
  intro ts
  induction ts with
  | nil => intro o _ _ id t1 h; exact ⟨t1, h, Or.inl rfl⟩
  | cons e ts ih =>
    intro o hk hf id t1 ht1
    simp only [Manager.updateTasksOf, hf]
    cases e with
    | none =>
      have hfault : (Manager.updateTask o none).fault = true := rfl
      rw [updateTasksOf_of_fault _ _ hfault]
      exact ⟨t1, ht1, Or.inl rfl⟩
    | some u0 =>
      have hk1 := (updateTask_Keyed o (some u0) hk).1
      have hf1 : (Manager.updateTask o (some u0)).fault = false := by
        unfold Manager.updateTask
        dsimp only
        split <;> exact hf
      rcases updateTask_TaskDb o (some u0) with h1 | ⟨u, task, he, hg, h1⟩
      · obtain ⟨t2, hg2, hrel⟩ := ih _ hk1 hf1 id t1 (by rw [h1]; exact ht1)
        refine ⟨t2, hg2, ?_⟩
        rcases hrel with h | ⟨pre, post, v, hsplit, hpre, hid, h⟩
        · exact Or.inl h
        · exact Or.inr ⟨some u0 :: pre, post, v, by rw [hsplit]; rfl, by simp [hpre], hid, h⟩
      · cases he
        have hkey : task.ID.String = u0.ID.String := Keyed_Get hk hg
        by_cases hid0 : task.ID.String = id
        · have htask : task = t1 := by
            rw [← hkey, hid0, ht1] at hg
            exact (Option.some.inj hg).symm
          subst htask
          obtain ⟨t2, hg2, hrel⟩ := ih _ hk1 hf1 id (reconciled task u0)
            (by rw [h1, Get_Put, if_pos hid0])
          refine ⟨t2, hg2, Or.inr ?_⟩
          rcases hrel with h | ⟨pre, post, v, hsplit, hpre, hid, h⟩
          · exact ⟨[], ts, u0, rfl, by simp, by rw [← hkey, hid0], h⟩
          · exact ⟨some u0 :: pre, post, v, by rw [hsplit]; rfl, by simp [hpre], hid,
              by rw [h, reconciled_reconciled]⟩
        · obtain ⟨t2, hg2, hrel⟩ := ih _ hk1 hf1 id t1
            (by rw [h1, Get_Put, if_neg hid0]; exact ht1)
          refine ⟨t2, hg2, ?_⟩
          rcases hrel with h | ⟨pre, post, v, hsplit, hpre, hid, h⟩
          · exact Or.inl h
          · exact Or.inr ⟨some u0 :: pre, post, v, by rw [hsplit]; rfl, by simp [hpre], hid, h⟩

end manager

/-! ## Lemmas on the inspection loop of the worker -/

namespace worker

open task manager

theorem InspectTask_error (c : Client) (t : Task) (e : String)
    (h : c.ContainerInspect t.ContainerId = .error e) :
    Worker.InspectTask c t = { Error := some e, Container := none } := by
  simp [Worker.InspectTask, NewDocker, Docker.Inspect, h]

theorem InspectTask_ok (c : Client) (t : Task) (cj : ContainerJSON)
    (h : c.ContainerInspect t.ContainerId = .ok cj) :
    Worker.InspectTask c t = { Error := none, Container := some cj } := by
  simp [Worker.InspectTask, NewDocker, Docker.Inspect, h]

/-- One iteration of the inspection loop never faults; it leaves the store as
it was, or, for a `Running` task whose inspection returned a container, writes
the inspected task back under its identifier. -/
theorem inspectStep_Db (c : Client) (w : Worker) (t : Task) :
    ∃ w1 calls, Worker.updateTask c w t = some (w1, calls) ∧
      ((w1.Db = w.Db ∧
          ¬ (t.State = Running ∧ ∃ cj, c.ContainerInspect t.ContainerId = .ok cj)) ∨
        ∃ cj, t.State = Running ∧ c.ContainerInspect t.ContainerId = .ok cj ∧
          w1.Db = w.Db.Put t.ID.String (inspected t cj)) := by
  by_cases hr : t.State = Running
  · cases hi : c.ContainerInspect t.ContainerId with
    | error e =>
      refine ⟨w, [Call.Inspect t.ContainerId], ?_, Or.inl ⟨rfl, ?_⟩⟩
      · simp [Worker.updateTask, hr, InspectTask_error c t e hi]
      · rintro ⟨_, cj, hcj⟩
        cases hcj
    | ok cj =>
      refine ⟨{ w with Db := w.Db.Put t.ID.String (inspected t cj) },
        [Call.Inspect t.ContainerId], ?_, Or.inr ⟨cj, hr, rfl, rfl⟩⟩
      simp only [Worker.updateTask, hr, if_true, InspectTask_ok c t cj hi]
      by_cases hex : cj.Status = "exited" <;> simp [inspected, hex]
  · refine ⟨w, [], ?_, Or.inl ⟨rfl, fun h => hr h.1⟩⟩
    simp [Worker.updateTask, hr]

/-- The inspection loop never faults.  The task kept under `id` is left as it
was when no visited task with this identifier is `Running` with a container
returned by its inspection; and, the visited identifiers being distinct, it is
the inspected form of the visited task with this identifier when that one is
`Running` and its inspection returned a container. -/
theorem inspectLoop_Get (c : Client) :
    ∀ (ts : List Task) (w : Worker),
      ∃ w1 calls, Worker.updateTasksLoop c ts w = some (w1, calls) ∧
        ∀ id : String,
          ((∀ t ∈ ts, t.ID.String = id →
              ¬ (t.State = Running ∧ ∃ cj, c.ContainerInspect t.ContainerId = .ok cj)) →
            w1.Db.Get id = w.Db.Get id) ∧
          ((ts.map (fun t => t.ID.String)).Nodup →
            ∀ t ∈ ts, t.ID.String = id → t.State = Running →
              ∀ cj, c.ContainerInspect t.ContainerId = .ok cj →
                w1.Db.Get id = some (inspected t cj)) := by
  intro ts
  induction ts with
  | nil =>
    intro w
    exact ⟨w, [], rfl, fun id => ⟨fun _ => rfl, fun _ t ht => by cases ht⟩⟩
  | cons h ts ih =>
    intro w
    obtain ⟨w1, calls1, hstep, hdb⟩ := inspectStep_Db c w h
    obtain ⟨w2, calls2, hloop, hget⟩ := ih w1
    refine ⟨w2, calls1 ++ calls2, by simp [Worker.updateTasksLoop, hstep, hloop], ?_⟩
    intro id
    constructor
    · intro hno
      have h1 := (hget id).1 (fun t ht => hno t (List.mem_cons_of_mem _ ht))
      rw [h1]
      rcases hdb with ⟨hsame, _⟩ | ⟨cj, hr, hi, hput⟩
      · rw [hsame]
      · have hne : h.ID.String ≠ id := fun e =>
          hno h (List.mem_cons_self _ _) e ⟨hr, cj, hi⟩
        rw [hput, Get_Put, if_neg hne]
    · intro hn t ht hid hr cj hi
      simp only [List.map_cons, List.nodup_cons] at hn
      rcases List.mem_cons.mp ht with hth | hth
      · subst hth
        have hrest : ∀ t1 ∈ ts, t1.ID.String = id →
            ¬ (t1.State = Running ∧ ∃ cj, c.ContainerInspect t1.ContainerId = .ok cj) := by
          intro t1 ht1 hid1 _
          apply hn.1
          rw [hid, ← hid1]
          exact List.mem_map.mpr ⟨t1, ht1, rfl⟩
        rw [(hget id).1 hrest]
        rcases hdb with ⟨_, hnot⟩ | ⟨cj1, _, hi1, hput⟩
        · exact absurd ⟨hr, cj, hi⟩ hnot
        · rw [hi] at hi1
          cases hi1
          rw [hput, Get_Put, if_pos hid]
      · exact (hget id).2 hn.2 t hth hid hr cj hi

end worker

/-! ## The claims -/

section claims

open task node manager

/-- C1. `IsValidStateTransition src dst` is true exactly for the seven pairs of
the table, for every pair of states (whether or not they are among the five
named ones), and it is false for every `dst` when `src` is `Completed` or
`Failed`. -/
theorem isValidStateTransition_table (src dst : State) :
    (IsValidStateTransition src dst = true ↔
      (src, dst) ∈ [(Pending, Scheduled), (Scheduled, Scheduled), (Scheduled, Running),
        (Scheduled, Failed), (Running, Running), (Running, Completed), (Running, Failed)]) ∧
    IsValidStateTransition Completed dst = false ∧
    IsValidStateTransition Failed dst = false := by
  refine ⟨?_, by simp [IsValidStateTransition, stateTransitionMap, GoMap.get, Contains,
      Pending, Scheduled, Running, Completed, Failed],
    by simp [IsValidStateTransition, stateTransitionMap, GoMap.get, Contains,
      Pending, Scheduled, Running, Completed, Failed]⟩
  simp only [IsValidStateTransition, stateTransitionMap, GoMap.get, Pending, Scheduled,
    Running, Completed, Failed]
  by_cases h0 : (0 : Int) = src
  · subst h0; simp [Contains]; aesop
  by_cases h1 : (1 : Int) = src
  · subst h1; simp [Contains]; aesop
  by_cases h2 : (2 : Int) = src
  · subst h2; simp [Contains]; aesop
  by_cases h3 : (3 : Int) = src
  · subst h3; simp [Contains]
  by_cases h4 : (4 : Int) = src
  · subst h4; simp [Contains]
  · simp [h0, h1, h2, h3, h4, Contains]
    refine ⟨?_, ?_, ?_, ?_, ?_, ?_, ?_⟩ <;> intro h <;> simp_all

open task node manager

/-- C2. When the head `t` of the worker queue has a non-nil identifier, the
store holds a task `P` under that identifier and the transition from `P.State`
to `t.State` is not allowed, `runTask` returns a result whose error is not nil,
leaves the store as it was and invokes neither `StartTask` nor `StopTask`, so
that no driver operation is reached; the task is consumed from the queue. -/
theorem runTask_refuses_invalid_transition (c : Client) (now : Time) (w : worker.Worker)
    (t P : Task) (rest : List Task)
    (hq : queue.Rep w.Queue (t :: rest))
    (hid : t.ID ≠ UUID.Nil)
    (hP : w.Db.Get t.ID.String = some P)
    (hinv : IsValidStateTransition P.State t.State = false) :
    ∃ w1 result, w.runTask c now = some (w1, result, []) ∧
      result.Error ≠ none ∧ w1.Db = w.Db ∧ w1.Db.Get t.ID.String = some P ∧
      queue.Rep w1.Queue rest := by
  obtain ⟨q1, hd, hr⟩ := queue.Rep_Dequeue hq Task.zero
  refine ⟨{ w with Queue := q1 }, { DockerResult.zero with Error := some "invalid transition" },
    ?_, by simp, rfl, hP, hr⟩
  simp [worker.Worker.runTask, hd, hid, hP, hinv]

/-- Witness of C2: a worker holding `failedX` whose queue head asks to schedule
it again. -/
theorem runTask_refuses_invalid_transition_witness :
    ∃ w1 result,
      ({ sample.workerX with Queue := sample.single sample.restartEventX.Task } :
          worker.Worker).runTask sample.engine 9 = some (w1, result, []) ∧
      result.Error ≠ none ∧ w1.Db = sample.workerX.Db ∧
      w1.Db.Get "X" = some sample.failedX ∧ queue.Rep w1.Queue [] :=
  runTask_refuses_invalid_transition sample.engine 9
    { sample.workerX with Queue := sample.single sample.restartEventX.Task }
    sample.restartEventX.Task sample.failedX []
    ⟨rfl, 0, rfl, ⟨_, rfl, rfl⟩, rfl⟩ (by decide) rfl rfl

/-- C3, evaluated at two failing inputs.  The event `eventA`, whose task is
submitted in state `Pending`, is dispatched by `SendWork` to worker `w1`: the
task inside the posted body is still `Pending`, because the state is set on
the local copy `t` and not on `te.Task`.  When the worker refuses the request
(status 400) `TaskDb` keeps the copy persisted before the POST, which is
`Scheduled`; when the worker answers 201 with the task it received, that
answer is decoded into `t` and `TaskDb` ends with the task as submitted,
`Pending`.  The same holds for `eventRunningA`, submitted as `Running`; the
worker that receives this body persists the task as `Running` and its `runTask`
ends in the branch whose error is "not reachable", without starting anything. -/
theorem sendWork_posts_submitted_state :
    (Manager.SendWork sample.firstNode sample.calm sample.managerA).fault = false ∧
    (Manager.SendWork sample.firstNode sample.calm sample.managerA).trace.getLast?
      = some (Call.Post "http://w1/task" sample.eventA) ∧
    sample.eventA.Task.State = Pending ∧
    (Manager.SendWork sample.firstNode sample.refusing sample.managerA).trace.getLast?
      = some (Call.Post "http://w1/task" sample.eventA) ∧
    ((Manager.SendWork sample.firstNode sample.refusing sample.managerA).m.TaskDb.Get "A").map
      Task.State = some Scheduled ∧
    ((Manager.SendWork sample.firstNode sample.calm sample.managerA).m.TaskDb.Get "A").map
      Task.State = some Pending ∧
    (Manager.SendWork sample.firstNode sample.calm sample.managerRunningA).fault = false ∧
    (Manager.SendWork sample.firstNode sample.calm sample.managerRunningA).trace.getLast?
      = some (Call.Post "http://w1/task" sample.eventRunningA) ∧
    sample.eventRunningA.Task.State = Running ∧
    ((Manager.SendWork sample.firstNode sample.refusing sample.managerRunningA).m.TaskDb.Get
      "A").map Task.State = some Scheduled ∧
    ((Manager.SendWork sample.firstNode sample.calm sample.managerRunningA).m.TaskDb.Get
      "A").map Task.State = some Running ∧
    ((worker.StartTaskHandler (worker.New "w1") (some sample.eventRunningA)).bind
        (fun r => r.1.runTask sample.engine 9)).map
        (fun r => (r.2.1.Error, r.2.2, (r.1.Db.Get "A").map Task.State))
      = some (some "not reachable", [], some Running) := by
  decide

/-- C4, evaluated at the failing input: the manager holds `failedX` (state
`Failed`, no restart yet) assigned to `w1`, and the worker `w1` holds it as
`Failed` too.  One `doHealthChecks` tick calls `restartTask`, which posts the
task with `State = Scheduled` and `RestartCount = 1`; the worker queues it
through `StartTaskHandler`, and `runTask` then refuses it as an invalid
transition: `StartTask` is not invoked and the worker still holds the task as
`Failed`. -/
theorem restarted_failed_task_is_not_started :
    (Manager.doHealthChecks sample.calm sample.managerX).trace
      = [Call.restartTask sample.failedX, Call.Post "http://w1/task" sample.restartEventX] ∧
    sample.restartEventX.Task.State = Scheduled ∧
    sample.restartEventX.Task.RestartCount = 1 ∧
    (worker.StartTaskHandler sample.workerX (some sample.restartEventX)).map Prod.snd
      = some 201 ∧
    ((worker.StartTaskHandler sample.workerX (some sample.restartEventX)).bind
        (fun r => r.1.runTask sample.engine 9)).map
        (fun r => (r.2.1.Error, r.2.2, r.1.Db.Get "X"))
      = some (some "invalid transition", [], some sample.failedX) := by
  decide

/-- C5, counterexample: two manager operations move a persisted task along a
pair that is not in the table.  One `doHealthChecks` tick takes `X` from
`Failed` to `Scheduled`; one `updateTasks` tick in which the worker reports `A`
as `Completed` takes `A` from `Scheduled` to `Completed`. -/
theorem manager_transition_counterexample :
    (sample.managerX.TaskDb.Get "X").map Task.State = some Failed ∧
    ((Manager.doHealthChecks sample.calm sample.managerX).m.TaskDb.Get "X").map Task.State
      = some Scheduled ∧
    Scheduled ≠ Failed ∧ IsValidStateTransition Failed Scheduled = false ∧
    (sample.managerScheduledA.TaskDb.Get "A").map Task.State = some Scheduled ∧
    ((Manager.updateTasks (sample.reporting { sample.taskA with State := Completed })
        sample.managerScheduledA).m.TaskDb.Get "A").map Task.State = some Completed ∧
    Completed ≠ Scheduled ∧ IsValidStateTransition Scheduled Completed = false := by
  decide

/-- C5, amended.  On a manager whose task store keeps every task under its own
identifier, for the task `t` kept under `id`, the task is still present after
each operation, and its state is as follows.  After `SendWork`: the same
state; or, when `id` had no worker in `TaskWorkerMap`, `Scheduled`, or the
state of the task decoded from the answer 201 to the POST that ends the trace,
for the event of a task with this identifier.  After `updateTasks`: the same
state, or the state of a task with this identifier that the tick read from
the answer of a worker, no null element coming before it.  After
`doHealthChecks`: the same state, or `Scheduled` when it was `Running` or
`Failed` with fewer than three restarts.  No transition table is consulted in
any of these. -/
theorem manager_state_changes (m : Manager) (hk : Keyed m.TaskDb) (id : String) (t : Task)
    (ht : m.TaskDb.Get id = some t) :
    (∀ (κ : Type) (s : Scheduler κ) (W : World),
      ∃ t1, (Manager.SendWork s W m).m.TaskDb.Get id = some t1 ∧
        (t1.State = t.State ∨
          (m.TaskWorkerMap.get ⟨id⟩ = none ∧
            (t1.State = Scheduled ∨
              ∃ url te body,
                (Manager.SendWork s W m).trace.getLast? = some (Call.Post url te) ∧
                W.Post ((Manager.SendWork s W m).trace.length - 1) url te = some (201, body) ∧
                te.Task.ID.String = id ∧ t1.State = body.State)))) ∧
    (∀ W : World,
      ∃ t1, (Manager.updateTasks W m).m.TaskDb.Get id = some t1 ∧
        (t1.State = t.State ∨
          ∃ pre post u, Manager.reports W m = pre ++ some u :: post ∧ none ∉ pre ∧
            u.ID.String = id ∧ t1.State = u.State)) ∧
    (∀ W : World,
      ∃ t1, (Manager.doHealthChecks W m).m.TaskDb.Get id = some t1 ∧
        (t1.State = t.State ∨
          (t1.State = Scheduled ∧ (t.State = Running ∨ t.State = Failed) ∧
            t.RestartCount < 3))) := by
  refine ⟨?_, ?_, ?_⟩
  · intro κ s W
    rcases SendWork_TaskDb s W m with h | ⟨te, hnew, h⟩
    · exact ⟨t, by rw [h]; exact ht, Or.inl rfl⟩
    · by_cases hid : te.Task.ID.String = id
      · have hnone : m.TaskWorkerMap.get ⟨id⟩ = none := by rw [← hid]; exact hnew
        rcases h with h | ⟨url, body, hlast, hpost, h⟩
        · exact ⟨{ te.Task with State := Scheduled }, by rw [h, Get_Put, if_pos hid],
            Or.inr ⟨hnone, Or.inl rfl⟩⟩
        · exact ⟨body, by rw [h, Get_Put, if_pos hid],
            Or.inr ⟨hnone, Or.inr ⟨url, te, body, hlast, hpost, hid, rfl⟩⟩⟩
      · rcases h with h | ⟨_, _, _, _, h⟩
        · exact ⟨t, by rw [h, Get_Put, if_neg hid]; exact ht, Or.inl rfl⟩
        · exact ⟨t, by rw [h, Get_Put, if_neg hid, Get_Put, if_neg hid]; exact ht, Or.inl rfl⟩
  · intro W
    have hm : (Manager.updateTasks W m).m
        = (Manager.updateTasksOf (Manager.reports W m)
            { m := m, trace := [], fault := false }).m :=
      (updateTasksLoop_reports W m.Workers { m := m, trace := [], fault := false }).1
    obtain ⟨t1, hg, hrel⟩ := updateTasksOf_read (Manager.reports W m)
      { m := m, trace := [], fault := false } hk rfl id t ht
    refine ⟨t1, by rw [hm]; exact hg, ?_⟩
    rcases hrel with h | ⟨pre, post, u, hsplit, hpre, hid, h⟩
    · exact Or.inl (by rw [h])
    · exact Or.inr ⟨pre, post, u, hsplit, hpre, hid, by rw [h]; rfl⟩
  · intro W
    obtain ⟨t1, hg, hrel⟩ := doHealthChecks_Get W m hk id t ht
    refine ⟨t1, hg, ?_⟩
    rcases hrel with h | ⟨hr, hs, h⟩
    · exact Or.inl (by rw [h])
    · exact Or.inr ⟨by rw [h]; rfl, hs, hr⟩

/-- Witness of C5 amended: the manager `managerX`, whose store keeps the failed
task `X`. -/
theorem manager_state_changes_witness :
    Keyed sample.managerX.TaskDb ∧ sample.managerX.TaskDb.Get "X" = some sample.failedX ∧
    (∀ (κ : Type) (s : Scheduler κ) (W : World),
      ∃ t1, (Manager.SendWork s W sample.managerX).m.TaskDb.Get "X" = some t1 ∧
        (t1.State = sample.failedX.State ∨
          (sample.managerX.TaskWorkerMap.get ⟨"X"⟩ = none ∧
            (t1.State = Scheduled ∨
              ∃ url te body,
                (Manager.SendWork s W sample.managerX).trace.getLast?
                  = some (Call.Post url te) ∧
                W.Post ((Manager.SendWork s W sample.managerX).trace.length - 1) url te
                  = some (201, body) ∧
                te.Task.ID.String = "X" ∧ t1.State = body.State)))) ∧
    (∀ W : World,
      ∃ t1, (Manager.updateTasks W sample.managerX).m.TaskDb.Get "X" = some t1 ∧
        (t1.State = sample.failedX.State ∨
          ∃ pre post u, Manager.reports W sample.managerX = pre ++ some u :: post ∧
            none ∉ pre ∧ u.ID.String = "X" ∧ t1.State = u.State)) ∧
    (∀ W : World,
      ∃ t1, (Manager.doHealthChecks W sample.managerX).m.TaskDb.Get "X" = some t1 ∧
        (t1.State = sample.failedX.State ∨
          (t1.State = Scheduled ∧
            (sample.failedX.State = Running ∨ sample.failedX.State = Failed) ∧
            sample.failedX.RestartCount < 3))) :=
  ⟨⟨by decide, by decide⟩, rfl,
    manager_state_changes sample.managerX ⟨by decide, by decide⟩ "X" sample.failedX rfl⟩

/-- C6. Starting from `New workers`, after any sequence of `AddTask` and
`SendWork` steps, with any events, any scheduler and any answers of the world,
the manager state reached (at the end of the steps, or at the run-time fault
that stopped them) satisfies `Agree`: `TaskWorkerMap[id] = w` exactly when `id`
occurs in `WorkerTaskMap[w]`, and every assigned `id` occurs exactly once in
all the lists of `WorkerTaskMap` together. -/
theorem assignment_maps_agree {κ : Type} (workers : List String) (steps : List (Step κ)) :
    (Manager.steps steps (New workers)).1.WorkerTaskMap.keys.Nodup ∧
    (∀ id w, (Manager.steps steps (New workers)).1.TaskWorkerMap.get id = some w ↔
      id ∈ ((Manager.steps steps (New workers)).1.WorkerTaskMap.get w).getD []) ∧
    (∀ id w, (Manager.steps steps (New workers)).1.TaskWorkerMap.get id = some w →
      (Manager.steps steps (New workers)).1.WorkerTaskMap.values.flatten.count id = 1) :=
  Agree_steps steps (New workers) (Agree_New workers)

open task node manager

/-- C7. On a manager whose task store keeps every task under its own
identifier, for the task `t` kept under `id` and every answer of the world:
one `doHealthChecks` tick leaves `RestartCount` unchanged or increased by
exactly 1, and every `restartTask` call of the tick is for a task of the store
whose `RestartCount` was below 3 before the tick; over any sequence of
`doHealthChecks` and `updateTasks` ticks `RestartCount` never decreases, never
exceeds 3 when it started at most 3, and once it is 3 or more it stays as it is
and the task is never restarted. -/
theorem restart_count_monotone_and_capped (m : Manager) (hk : Keyed m.TaskDb) (id : String)
    (t : Task) (ht : m.TaskDb.Get id = some t) :
    (∀ W : World,
      (∃ t1, (Manager.doHealthChecks W m).m.TaskDb.Get id = some t1 ∧
        (t1.RestartCount = t.RestartCount ∨ t1.RestartCount = t.RestartCount + 1)) ∧
      (∀ u, Call.restartTask u ∈ (Manager.doHealthChecks W m).trace →
        u ∈ m.GetTasks ∧ u.RestartCount < 3)) ∧
    (∀ ks : List Tick,
      ∃ t1, (Manager.ticks ks { m := m, trace := [], fault := false }).m.TaskDb.Get id
          = some t1 ∧
        t.RestartCount ≤ t1.RestartCount ∧
        (t.RestartCount ≤ 3 → t1.RestartCount ≤ 3) ∧
        (3 ≤ t.RestartCount → t1.RestartCount = t.RestartCount ∧
          ∀ u, Call.restartTask u
              ∈ (Manager.ticks ks { m := m, trace := [], fault := false }).trace →
            u.ID.String ≠ id)) := by
  constructor
  · intro W
    constructor
    · obtain ⟨t1, hg, hrel⟩ := doHealthChecks_Get W m hk id t ht
      refine ⟨t1, hg, ?_⟩
      rcases hrel with h | ⟨_, _, h⟩
      · exact Or.inl (by rw [h])
      · exact Or.inr (by rw [h]; rfl)
    · intro u hu
      obtain ⟨hm, hlt, _⟩ := doHealthChecks_trace W m u hu
      exact ⟨hm, hlt⟩
  · intro ks
    obtain ⟨t1, hg, hle, hcap, hstay⟩ :=
      ticks_Get ks { m := m, trace := [], fault := false } hk id t ht
    refine ⟨t1, hg, hle, hcap, ?_⟩
    intro h3
    obtain ⟨heq, htr⟩ := hstay h3
    refine ⟨heq, ?_⟩
    intro u hu
    rcases htr u hu with h | h
    · simp at h
    · exact h

open task node manager

/-- Witness of C7: the manager `managerX`, whose store keeps the failed task
`X` with no restart yet. -/
theorem restart_count_monotone_and_capped_witness :
    Keyed sample.managerX.TaskDb ∧ sample.managerX.TaskDb.Get "X" = some sample.failedX ∧
    (∀ W : World,
      (∃ t1, (Manager.doHealthChecks W sample.managerX).m.TaskDb.Get "X" = some t1 ∧
        (t1.RestartCount = sample.failedX.RestartCount ∨
          t1.RestartCount = sample.failedX.RestartCount + 1)) ∧
      (∀ u, Call.restartTask u ∈ (Manager.doHealthChecks W sample.managerX).trace →
        u ∈ sample.managerX.GetTasks ∧ u.RestartCount < 3)) ∧
    (∀ ks : List Tick,
      ∃ t1, (Manager.ticks ks { m := sample.managerX, trace := [], fault := false }).m.TaskDb.Get
          "X" = some t1 ∧
        sample.failedX.RestartCount ≤ t1.RestartCount ∧
        (sample.failedX.RestartCount ≤ 3 → t1.RestartCount ≤ 3) ∧
        (3 ≤ sample.failedX.RestartCount → t1.RestartCount = sample.failedX.RestartCount ∧
          ∀ u, Call.restartTask u
              ∈ (Manager.ticks ks { m := sample.managerX, trace := [], fault := false }).trace →
            u.ID.String ≠ "X")) :=
  ⟨⟨by decide, by decide⟩, rfl,
    restart_count_monotone_and_capped sample.managerX ⟨by decide, by decide⟩ "X"
      sample.failedX rfl⟩

/-- C8. For every sequence of `Enqueue` and `Dequeue` calls applied to a queue
created by `New`, no call faults and the linked queue behaves as the list of
`specRun`: the `Dequeue` calls return what removing the head of the list
returns (the oldest value not yet dequeued, or the zero value on the empty
queue), the queue ends holding the list of values enqueued and not yet
dequeued, and `Length` is the length of that list.  In particular, enqueuing
`xs` on a new queue and dequeuing as many times returns `xs` in order and
leaves `Length = 0`. -/
theorem queue_fifo {T : Type} (zeroValue : T) (ops : List (queue.Op T)) :
    (∃ q, queue.run zeroValue ops queue.New = some (q, (queue.specRun zeroValue ops []).2) ∧
        queue.Rep q (queue.specRun zeroValue ops []).1 ∧
        q.Length = (queue.specRun zeroValue ops []).1.length) ∧
    (∀ xs : List T, ∃ q,
        queue.run zeroValue
            (xs.map queue.Op.enqueue ++ List.replicate xs.length queue.Op.dequeue) queue.New
          = some (q, xs) ∧ q.Length = 0) := by
  constructor
  · obtain ⟨q, h1, h2⟩ := queue.run_refines zeroValue ops queue.New [] queue.Rep_New
    exact ⟨q, h1, h2, queue.Rep_Length h2⟩
  · intro xs
    obtain ⟨q, h1, h2⟩ := queue.run_refines zeroValue
      (xs.map queue.Op.enqueue ++ List.replicate xs.length queue.Op.dequeue) queue.New []
      queue.Rep_New
    rw [queue.specRun_enqueues, List.nil_append, queue.specRun_dequeues] at h1 h2
    exact ⟨q, h1, by simpa using queue.Rep_Length h2⟩

/-- C9. When the pending queue holds exactly one event `te`, its task is not
in `TaskWorkerMap`, the scheduler selects the node `w`, the event can be
encoded and the POST to the worker fails in transport, `SendWork` ends without
fault, the pending queue again holds exactly `te` and has length 1, `TaskDb`
holds the task with `State = Scheduled` and `TaskWorkerMap` maps it to `w`. -/
theorem sendWork_transport_failure {κ : Type} (s : Scheduler κ) (W : World) (m : Manager)
    (te : TaskEvent) (w : Node) (calls : List Call)
    (hq : queue.Rep m.Pending [some te])
    (hnew : m.TaskWorkerMap.get te.Task.ID = none)
    (hsel : m.SelectWorker s te.Task = (.ok (some w), calls))
    (hmar : W.Marshal calls.length te = true)
    (hpost : W.Post calls.length ("http://" ++ w.Name ++ "/task") te = none) :
    (Manager.SendWork s W m).fault = false ∧
    queue.Rep (Manager.SendWork s W m).m.Pending [some te] ∧
    (Manager.SendWork s W m).m.Pending.Length = 1 ∧
    (Manager.SendWork s W m).m.TaskDb.Get te.Task.ID.String
      = some { te.Task with State := Scheduled } ∧
    (Manager.SendWork s W m).m.TaskWorkerMap.get te.Task.ID = some w.Name := by
  obtain ⟨q1, hd, hr1⟩ := queue.Rep_Dequeue hq none
  obtain ⟨q2, he, hr2⟩ := queue.Rep_Enqueue hr1 (some te)
  have hlen : m.Pending.Length ≠ 0 := by rw [queue.Rep_Length hq]; simp
  have hsel1 : Manager.SelectWorker s
      { m with Pending := q1, EventDb := m.EventDb.Put te.ID.String te } te.Task
        = (.ok (some w), calls) := hsel
  have hres : Manager.SendWork s W m =
      { m := { m with
          Pending := q2,
          EventDb := m.EventDb.Put te.ID.String te,
          WorkerTaskMap :=
            m.WorkerTaskMap.set w.Name (((m.WorkerTaskMap.get w.Name).getD []) ++ [te.Task.ID]),
          TaskWorkerMap := m.TaskWorkerMap.set te.Task.ID w.Name,
          TaskDb := m.TaskDb.Put te.Task.ID.String { te.Task with State := Scheduled } },
        trace := calls ++ [Call.Post ("http://" ++ w.Name ++ "/task") te],
        fault := false } := by
    simp only [Manager.SendWork, if_neg hlen, hd, hnew, hsel1, hmar, if_true, hpost, he]
  rw [hres]
  refine ⟨rfl, hr2, ?_, ?_, ?_⟩
  · simpa using queue.Rep_Length hr2
  · simp [store.InMemoryTaskStore.Get, store.InMemoryTaskStore.Put, GoMap.get_set_self]
  · simp [GoMap.get_set_self]

open task node manager

/-- Witness of C9: `managerA` in a world where no worker can be reached. -/
theorem sendWork_transport_failure_witness :
    (Manager.SendWork sample.firstNode sample.unreachable sample.managerA).fault = false ∧
    queue.Rep (Manager.SendWork sample.firstNode sample.unreachable sample.managerA).m.Pending
      [some sample.eventA] ∧
    (Manager.SendWork sample.firstNode sample.unreachable sample.managerA).m.Pending.Length = 1 ∧
    (Manager.SendWork sample.firstNode sample.unreachable sample.managerA).m.TaskDb.Get
        sample.eventA.Task.ID.String
      = some { sample.eventA.Task with State := Scheduled } ∧
    (Manager.SendWork sample.firstNode sample.unreachable sample.managerA).m.TaskWorkerMap.get
        sample.eventA.Task.ID
      = some (NewNode "w1" "http://w1" "worker").Name :=
  sendWork_transport_failure sample.firstNode sample.unreachable sample.managerA sample.eventA
    (NewNode "w1" "http://w1" "worker")
    (sample.managerA.SelectWorker sample.firstNode sample.eventA.Task).2
    ⟨rfl, 0, rfl, ⟨_, rfl, rfl⟩, rfl⟩ rfl rfl rfl rfl

/-- C10, counterexample: the filter of `rejectAll` returns an empty slice that
is not nil; `SelectWorker` then reports no error and calls both `Score` and
`Pick`. -/
theorem selectWorker_empty_slice_counterexample :
    sample.rejectAll.SelectCandidateNodes sample.taskA (New ["w1"]).WorkerNodes = some [] ∧
    (New ["w1"]).SelectWorker sample.rejectAll sample.taskA
      = (.ok none,
          [Call.SelectCandidateNodes sample.taskA, Call.Score sample.taskA [], Call.Pick []]) := by
  exact ⟨rfl, rfl⟩

/-- C10, amended: when `SelectCandidateNodes` returns the nil slice,
`SelectWorker` returns an error and no node, and the only scheduler call it
made is `SelectCandidateNodes`: neither `Score` nor `Pick` is called. -/
theorem selectWorker_nil_candidates {κ : Type} (s : Scheduler κ) (m : Manager) (t : Task)
    (h : s.SelectCandidateNodes t m.WorkerNodes = none) :
    ∃ msg, m.SelectWorker s t = (.error msg, [Call.SelectCandidateNodes t]) := by
  refine ⟨"No available candidates match resource request for task " ++ t.ID.String, ?_⟩
  simp only [Manager.SelectWorker, h]

/-- Witness of C10 amended: the scheduler `rejectAllNil`. -/
theorem selectWorker_nil_candidates_witness :
    ∃ msg, (New ["w1"]).SelectWorker sample.rejectAllNil sample.taskA
      = (.error msg, [Call.SelectCandidateNodes sample.taskA]) :=
  selectWorker_nil_candidates sample.rejectAllNil (New ["w1"]) sample.taskA rfl

open task node manager

/-- C11. On a manager whose task store keeps every task under its own
identifier, one `updateTasks` tick leaves the set of keys of `TaskDb` as it
was, so that a reported task whose identifier is absent is skipped.  For a
reported task `t` whose identifier is present with the persisted task `t0`,
when no null element is read before `t` and no task read after `t` in the
same tick carries its identifier, the task persisted afterwards is `t0` with
`State`, `StartTime`, `FinishTime`, `ContainerId` and `HostPorts` replaced by
those of `t` and every other field unchanged; in particular a task held as
`Scheduled` and reported as `Running` is `Running` afterwards.  Hence, in a
tick whose elements are tasks with pairwise distinct identifiers, this holds
for every reported task whose identifier is present. -/
theorem updateTasks_reconciles (W : World) (m : Manager) (hk : Keyed m.TaskDb) :
    (Manager.updateTasks W m).m.TaskDb.Db.keys = m.TaskDb.Db.keys ∧
    (∀ id, m.TaskDb.Get id = none → (Manager.updateTasks W m).m.TaskDb.Get id = none) ∧
    (∀ (pre post : List (Option Task)) (t t0 : Task),
      Manager.reports W m = pre ++ some t :: post →
      none ∉ pre →
      (∀ u, some u ∈ post → u.ID.String ≠ t.ID.String) →
      m.TaskDb.Get t.ID.String = some t0 →
      (Manager.updateTasks W m).m.TaskDb.Get t.ID.String
        = some { t0 with State := t.State, StartTime := t.StartTime,
                         FinishTime := t.FinishTime, ContainerId := t.ContainerId,
                         HostPorts := t.HostPorts } ∧
      (t0.State = Scheduled → t.State = Running →
        ((Manager.updateTasks W m).m.TaskDb.Get t.ID.String).map Task.State = some Running)) ∧
    (none ∉ Manager.reports W m →
      ((Manager.reports W m).map (Option.map (fun u => u.ID.String))).Nodup →
      ∀ t t0 : Task, some t ∈ Manager.reports W m → m.TaskDb.Get t.ID.String = some t0 →
        (Manager.updateTasks W m).m.TaskDb.Get t.ID.String
          = some { t0 with State := t.State, StartTime := t.StartTime,
                           FinishTime := t.FinishTime, ContainerId := t.ContainerId,
                           HostPorts := t.HostPorts }) := by
  have hm : (Manager.updateTasks W m).m
      = (Manager.updateTasksOf (Manager.reports W m) { m := m, trace := [], fault := false }).m :=
    (updateTasksLoop_reports W m.Workers { m := m, trace := [], fault := false }).1
  have hkeys : (Manager.updateTasks W m).m.TaskDb.Db.keys = m.TaskDb.Db.keys := by
    rw [hm]
    exact updateTasksOf_keys _ { m := m, trace := [], fault := false } hk
  have hlast : ∀ (pre post : List (Option Task)) (t t0 : Task),
      Manager.reports W m = pre ++ some t :: post → none ∉ pre →
      (∀ u, some u ∈ post → u.ID.String ≠ t.ID.String) →
      m.TaskDb.Get t.ID.String = some t0 →
      (Manager.updateTasks W m).m.TaskDb.Get t.ID.String = some (reconciled t0 t) := by
    intro pre post t t0 hsplit hpre hpost hg
    rw [hm, hsplit]
    exact updateTasksOf_last pre post t t0 { m := m, trace := [], fault := false } hk rfl
      hpre hpost hg
  refine ⟨hkeys, ?_, ?_, ?_⟩
  · intro id hnone
    cases hg : (Manager.updateTasks W m).m.TaskDb.Get id with
    | none => rfl
    | some t1 =>
      exfalso
      have h1 : id ∈ (Manager.updateTasks W m).m.TaskDb.Db.keys :=
        (GoMap.get_isSome_iff _ id).mp (by
          simp only [store.InMemoryTaskStore.Get] at hg
          rw [hg]; rfl)
      rw [hkeys] at h1
      have h2 := (GoMap.get_isSome_iff _ id).mpr h1
      simp only [store.InMemoryTaskStore.Get] at hnone
      rw [hnone] at h2
      cases h2
  · intro pre post t t0 hsplit hpre hpost hg
    have hfin := hlast pre post t t0 hsplit hpre hpost hg
    refine ⟨hfin, ?_⟩
    intro _ hrun
    rw [hfin]
    simp [reconciled, hrun]
  · intro hnull hnodup t t0 hmem hg
    obtain ⟨pre, post, hsplit⟩ := List.append_of_mem hmem
    refine hlast pre post t t0 hsplit ?_ ?_ hg
    · intro hpre
      exact hnull (by rw [hsplit]; exact List.mem_append_left _ hpre)
    · intro u hu hid
      rw [hsplit, List.map_append, List.map_cons] at hnodup
      have h1 := (List.nodup_append.mp hnodup).2.1
      have h2 := (List.nodup_cons.mp h1).1
      apply h2
      exact List.mem_map.mpr ⟨some u, hu, by simp [hid]⟩

/-- Witness of C11: the manager holds `A` as `Scheduled` and its worker
reports `runningA`. -/
theorem updateTasks_reconciles_witness :
    Keyed sample.managerScheduledA.TaskDb ∧
    (Manager.updateTasks (sample.reporting sample.runningA)
      sample.managerScheduledA).m.TaskDb.Db.keys = sample.managerScheduledA.TaskDb.Db.keys ∧
    Manager.reports (sample.reporting sample.runningA) sample.managerScheduledA
      = [] ++ some sample.runningA :: [] ∧
    sample.managerScheduledA.TaskDb.Get sample.runningA.ID.String = some sample.scheduledA ∧
    (Manager.updateTasks (sample.reporting sample.runningA)
        sample.managerScheduledA).m.TaskDb.Get sample.runningA.ID.String
      = some { sample.scheduledA with
          State := sample.runningA.State, StartTime := sample.runningA.StartTime,
          FinishTime := sample.runningA.FinishTime, ContainerId := sample.runningA.ContainerId,
          HostPorts := sample.runningA.HostPorts } :=
  ⟨⟨by decide, by decide⟩,
    (updateTasks_reconciles (sample.reporting sample.runningA) sample.managerScheduledA
      ⟨by decide, by decide⟩).1,
    rfl, rfl,
    ((updateTasks_reconciles (sample.reporting sample.runningA) sample.managerScheduledA
      ⟨by decide, by decide⟩).2.2.1 [] [] sample.runningA sample.scheduledA rfl
      (by simp) (by simp) rfl).1⟩

/-- C12, with the evaluation at the failing input.  For every worker whose
store keeps each task under its own identifier and holds the task `t` as
`Running` under `id`, `updateTasks` ends without fault and: when the
inspection of the container fails (as it does when no such container exists),
the task is left exactly as it was, still `Running`; when the inspection
returns a container whose status is "exited", the task is persisted as `Failed`
with the ports of the container.  At the failing input, the worker `workerY`
holds `runningY` and the engine knows no container: the inspection returns an
error, and after `updateTasks` the task is still `Running`, not `Failed`. -/
theorem worker_updateTasks_verdict :
    (∀ (c : Client) (w : worker.Worker) (id : String) (t : Task),
      Keyed w.Db → w.Db.Get id = some t → t.State = Running →
      (∀ e, c.ContainerInspect t.ContainerId = .error e →
        ∃ w1 calls, w.updateTasks c = some (w1, calls) ∧ w1.Db.Get id = some t) ∧
      (∀ cj, c.ContainerInspect t.ContainerId = .ok cj → cj.Status = "exited" →
        ∃ w1 calls, w.updateTasks c = some (w1, calls) ∧
          w1.Db.Get id = some { t with State := Failed, HostPorts := cj.Ports })) ∧
    sample.workerY.Db.Get "Y" = some sample.runningY ∧
    sample.runningY.State = Running ∧
    (worker.Worker.InspectTask sample.engineWithout sample.runningY).Error
      = some "No such container: c7" ∧
    (sample.workerY.updateTasks sample.engineWithout).map
        (fun r => ((r.1.Db.Get "Y").map Task.State, r.2))
      = some (some Running, [worker.Call.Inspect "c7"]) ∧
    (sample.workerY.updateTasks sample.engineExited).map
        (fun r => ((r.1.Db.Get "Y").map Task.State, r.2))
      = some (some Failed, [worker.Call.Inspect "c7"]) := by
  refine ⟨?_, by decide, by decide, by decide, by decide, by decide⟩
  intro c w id t hk hg hr
  obtain ⟨w1, calls, hrun, hget⟩ := worker.inspectLoop_Get c w.Db.List w
  have hmem : t ∈ w.Db.List :=
    List.mem_map.mpr ⟨(id, t), GoMap.mem_of_get hg, rfl⟩
  have hid : t.ID.String = id := Keyed_Get hk hg
  constructor
  · intro e he
    refine ⟨w1, calls, hrun, ?_⟩
    rw [← hg]
    apply (hget id).1
    intro t1 ht1 hid1 hok
    have h1 := Keyed_List hk ht1
    rw [hid1, hg] at h1
    cases h1
    obtain ⟨_, cj, hcj⟩ := hok
    rw [he] at hcj
    cases hcj
  · intro cj hcj hex
    refine ⟨w1, calls, hrun, ?_⟩
    rw [(hget id).2 (Keyed_List_nodup hk) t hmem hid hr cj hcj]
    simp [worker.inspected, hex]

/-- C13. Let `m` hold exactly one pending event `te`, for a task without
worker, and let a first `SendWork` select the node `w` and fail the POST in
transport.  Then the next `SendWork` on the state so left, with any scheduler,
any world and whatever state the event asks for, ends without fault and with an
empty trace (no scheduler call, no POST, no DELETE), leaves the pending queue
empty (`Length = 0`), and leaves `TaskDb` and `TaskWorkerMap` as they were: the
task is still persisted as `Scheduled` and still mapped to `w`. -/
theorem reenqueued_event_is_consumed {κ κ2 : Type} (s : Scheduler κ) (W : World) (m : Manager)
    (te : TaskEvent) (w : Node) (calls : List Call)
    (hq : queue.Rep m.Pending [some te])
    (hnew : m.TaskWorkerMap.get te.Task.ID = none)
    (hsel : m.SelectWorker s te.Task = (.ok (some w), calls))
    (hmar : W.Marshal calls.length te = true)
    (hpost : W.Post calls.length ("http://" ++ w.Name ++ "/task") te = none)
    (s2 : Scheduler κ2) (W2 : World) :
    (Manager.SendWork s2 W2 (Manager.SendWork s W m).m).fault = false ∧
    (Manager.SendWork s2 W2 (Manager.SendWork s W m).m).trace = [] ∧
    queue.Rep (Manager.SendWork s2 W2 (Manager.SendWork s W m).m).m.Pending [] ∧
    (Manager.SendWork s2 W2 (Manager.SendWork s W m).m).m.Pending.Length = 0 ∧
    (Manager.SendWork s2 W2 (Manager.SendWork s W m).m).m.TaskDb
      = (Manager.SendWork s W m).m.TaskDb ∧
    (Manager.SendWork s2 W2 (Manager.SendWork s W m).m).m.TaskDb.Get te.Task.ID.String
      = some { te.Task with State := Scheduled } ∧
    (Manager.SendWork s2 W2 (Manager.SendWork s W m).m).m.TaskWorkerMap.get te.Task.ID
      = some w.Name := by
  obtain ⟨q2, hr2, h1⟩ := SendWork_transport_failure_state s W m te w calls hq hnew hsel hmar hpost
  have hP : (Manager.SendWork s W m).m.TaskDb.Get te.Task.ID.String
      = some { te.Task with State := Scheduled } := by
    rw [h1]; simp [store.InMemoryTaskStore.Get, store.InMemoryTaskStore.Put, GoMap.get_set_self]
  have hknown : (Manager.SendWork s W m).m.TaskWorkerMap.get te.Task.ID = some w.Name := by
    rw [h1]; simp [GoMap.get_set_self]
  have hq1 : queue.Rep (Manager.SendWork s W m).m.Pending [some te] := by
    rw [h1]; exact hr2
  obtain ⟨q3, hr3, h2⟩ := SendWork_known_scheduled s2 W2 (Manager.SendWork s W m).m te w.Name
    { te.Task with State := Scheduled } hq1 hknown hP rfl
  rw [h2]
  exact ⟨rfl, rfl, hr3, by simpa using queue.Rep_Length hr3, rfl, hP, hknown⟩

/-- Witness of C13: `managerA` meets a world where no worker can be reached,
then a calm one. -/
theorem reenqueued_event_is_consumed_witness :
    (Manager.SendWork sample.firstNode sample.calm
      (Manager.SendWork sample.firstNode sample.unreachable sample.managerA).m).fault = false ∧
    (Manager.SendWork sample.firstNode sample.calm
      (Manager.SendWork sample.firstNode sample.unreachable sample.managerA).m).trace = [] ∧
    queue.Rep (Manager.SendWork sample.firstNode sample.calm
      (Manager.SendWork sample.firstNode sample.unreachable sample.managerA).m).m.Pending [] ∧
    (Manager.SendWork sample.firstNode sample.calm
      (Manager.SendWork sample.firstNode sample.unreachable sample.managerA).m).m.Pending.Length
      = 0 ∧
    (Manager.SendWork sample.firstNode sample.calm
      (Manager.SendWork sample.firstNode sample.unreachable sample.managerA).m).m.TaskDb
      = (Manager.SendWork sample.firstNode sample.unreachable sample.managerA).m.TaskDb ∧
    (Manager.SendWork sample.firstNode sample.calm
      (Manager.SendWork sample.firstNode sample.unreachable sample.managerA).m).m.TaskDb.Get
        sample.eventA.Task.ID.String
      = some { sample.eventA.Task with State := Scheduled } ∧
    (Manager.SendWork sample.firstNode sample.calm
      (Manager.SendWork sample.firstNode sample.unreachable sample.managerA).m).m.TaskWorkerMap.get
        sample.eventA.Task.ID
      = some (NewNode "w1" "http://w1" "worker").Name :=
  reenqueued_event_is_consumed sample.firstNode sample.unreachable sample.managerA sample.eventA
    (NewNode "w1" "http://w1" "worker")
    (sample.managerA.SelectWorker sample.firstNode sample.eventA.Task).2
    ⟨rfl, 0, rfl, ⟨_, rfl, rfl⟩, rfl⟩ rfl rfl rfl rfl sample.firstNode sample.calm

end claims
